import Mathlib

/-!
Verification of the ydiff module (library/ydiff.py) of ansible-role-k8s.

The development shallowly embeds the module's core: the value model produced
by parsing and normalizing YAML-like text (`Val`), Python equality (`pyEq`),
the normalizer (`__normalize` → `normalize`), the ignore-key pruner
(`del_ignore_keys`), the empty-key pruner (`del_empty_keys`), the text codec
(`yaml_str_to_dict` / `dict_to_yaml_str`, whose external YAML library calls
are modelled), and the `main` diff pipeline (`ydiff_main`).
-/

set_option maxHeartbeats 1000000
set_option maxRecDepth 4000

namespace Ydiff

/-- Python values as they occur in the module after YAML parsing: `None`,
strings, integers, booleans, lists and dicts (a dict is an insertion-ordered
association list; Python guarantees key uniqueness, which the constructing
functions below maintain via `dedupEntries`). Tuples, floats, dates and other
native types are outside the modelled fragment. -/
inductive Val where
  | null : Val
  | str (s : String) : Val
  | int (n : Int) : Val
  | bool (b : Bool) : Val
  | list (xs : List Val) : Val
  | dict (es : List (Val × Val)) : Val
deriving Repr

mutual
/-- Decidable structural equality on `Val` (used only to state theorems and
for the `obj is None` identity test; Python's own `==` is `pyEq` below). -/
def valBeq : Val → Val → Bool
  | .null, .null => true
  | .str a, .str b => a == b
  | .int a, .int b => a == b
  | .bool a, .bool b => a == b
  | .list a, .list b => valBeqList a b
  | .dict a, .dict b => valBeqEntries a b
  | _, _ => false

/-- Structural equality on lists of values. -/
def valBeqList : List Val → List Val → Bool
  | [], [] => true
  | x :: xs, y :: ys => valBeq x y && valBeqList xs ys
  | _, _ => false

/-- Structural equality on entry lists. -/
def valBeqEntries : List (Val × Val) → List (Val × Val) → Bool
  | [], [] => true
  | (k, v) :: xs, (k', v') :: ys => valBeq k k' && valBeq v v' && valBeqEntries xs ys
  | _, _ => false
end

mutual
theorem valBeq_refl : ∀ v : Val, valBeq v v = true
  | .null => rfl
  | .str s => by simp [valBeq]
  | .int n => by simp [valBeq]
  | .bool b => by simp [valBeq]
  | .list xs => by simp [valBeq, valBeqList_refl xs]
  | .dict es => by simp [valBeq, valBeqEntries_refl es]
theorem valBeqList_refl : ∀ xs : List Val, valBeqList xs xs = true
  | [] => rfl
  | x :: xs => by simp [valBeqList, valBeq_refl x, valBeqList_refl xs]
theorem valBeqEntries_refl : ∀ es : List (Val × Val), valBeqEntries es es = true
  | [] => rfl
  | (k, v) :: es => by
      simp [valBeqEntries, valBeq_refl k, valBeq_refl v, valBeqEntries_refl es]
end

mutual
theorem valBeq_eq : ∀ {a b : Val}, valBeq a b = true → a = b
  | .null, .null, _ => rfl
  | .str _, .str _, h => by simp [valBeq] at h; simp [h]
  | .int _, .int _, h => by simp [valBeq] at h; simp [h]
  | .bool _, .bool _, h => by simp [valBeq] at h; simp [h]
  | .list _, .list _, h => by
      simp only [valBeq] at h
      exact congrArg Val.list (valBeqList_eq h)
  | .dict _, .dict _, h => by
      simp only [valBeq] at h
      exact congrArg Val.dict (valBeqEntries_eq h)
theorem valBeqList_eq : ∀ {a b : List Val}, valBeqList a b = true → a = b
  | [], [], _ => rfl
  | x :: xs, y :: ys, h => by
      simp only [valBeqList, Bool.and_eq_true] at h
      rw [valBeq_eq h.1, valBeqList_eq h.2]
theorem valBeqEntries_eq :
    ∀ {a b : List (Val × Val)}, valBeqEntries a b = true → a = b
  | [], [], _ => rfl
  | (k, v) :: xs, (k', v') :: ys, h => by
      simp only [valBeqEntries, Bool.and_eq_true] at h
      rw [valBeq_eq h.1.1, valBeq_eq h.1.2, valBeqEntries_eq h.2]
end

instance : DecidableEq Val := fun a b =>
  if h : valBeq a b = true then
    .isTrue (valBeq_eq h)
  else
    .isFalse (fun he => h (he ▸ valBeq_refl a))

/-- The test `isinstance(x, (dict, list))` of the source. -/
def isContainer : Val → Bool
  | .list _ => true
  | .dict _ => true
  | _ => false

/-- The test `isinstance(x, dict)`. -/
def isDictVal : Val → Bool
  | .dict _ => true
  | _ => false

mutual
/-- Python's `==` on the modelled values: strings, ints and bools compare by
value (with `True == 1` and `False == 0`), `None` equals only `None`, lists
compare pointwise, dicts compare by length plus key-wise value equality
(order-insensitive; Python dicts have unique keys). -/
def pyEq : Val → Val → Bool
  | .null, .null => true
  | .str a, .str b => a == b
  | .int a, .int b => a == b
  | .bool a, .bool b => a == b
  | .bool a, .int n => (if a then (1 : Int) else 0) == n
  | .int n, .bool b => n == (if b then (1 : Int) else 0)
  | .list a, .list b => pyEqList a b
  | .dict a, .dict b => (a.length == b.length) && pyEqSub a b
  | _, _ => false
termination_by a b => sizeOf a + sizeOf b
/-- Pointwise Python equality of lists. -/
def pyEqList : List Val → List Val → Bool
  | [], [] => true
  | x :: xs, y :: ys => pyEq x y && pyEqList xs ys
  | _, _ => false
termination_by a b => sizeOf a + sizeOf b
/-- Every entry of the first dict has a Python-equal entry in the second. -/
def pyEqSub : List (Val × Val) → List (Val × Val) → Bool
  | [], _ => true
  | kv :: rest, l => pyEqFind kv l && pyEqSub rest l
termination_by a l => sizeOf a + sizeOf l
/-- Membership of one key-value pair in an entry list, up to Python equality. -/
def pyEqFind : Val × Val → List (Val × Val) → Bool
  | _, [] => false
  | (k, v), (k', v') :: rest => (pyEq k k' && pyEq v v') || pyEqFind (k, v) rest
termination_by kv l => sizeOf kv + sizeOf l
end

/-- Python dict lookup `d[key]` (hash lookup resolves by `==`); `none` models
the `KeyError` case. -/
def lookupPy (k : Val) (d : List (Val × Val)) : Option Val :=
  (d.find? (fun e => pyEq e.1 k)).map (·.2)

/-- One step of Python dict construction: assigning to an existing key
(up to `==`) replaces its value in place, otherwise the pair is appended. -/
def insertEntry (acc : List (Val × Val)) (kv : Val × Val) : List (Val × Val) :=
  if acc.any (fun e => pyEq e.1 kv.1) then
    acc.map (fun e => if pyEq e.1 kv.1 then (e.1, kv.2) else e)
  else
    acc ++ [kv]

/-- Python `dict(pairs)` construction: sequential insertion, so duplicate
keys are resolved last-value-wins at the first occurrence's position. -/
def dedupEntries (l : List (Val × Val)) : List (Val × Val) :=
  l.foldl insertEntry []

/-- Decimal digits of a natural number (most significant first), modelling
Python's `str` on non-negative integers. -/
def natChars (n : Nat) : List Char :=
  if _h : n < 10 then [Nat.digitChar n]
  else natChars (n / 10) ++ [Nat.digitChar (n % 10)]
termination_by n
decreasing_by
  exact Nat.div_lt_self (by omega) (by omega)

/-- Python's `str` on an integer: decimal digits, `-`-prefixed when
negative. -/
def intStr (n : Int) : String :=
  if n < 0 then String.mk ('-' :: natChars n.natAbs) else String.mk (natChars n.natAbs)

/-- The null-token tuple `('None', 'null', 'Null', 'NULL')` of `__normalize`. -/
def nullTokens : List String := ["None", "null", "Null", "NULL"]

mutual
/-- Embedding of `YdiffDict.__normalize` (ydiff.py lines 200-216): a value
`==`-equal to one of the four null tokens becomes Python `None`; lists
recurse; dicts recurse on keys and values and are rebuilt by `dict(...)`;
everything else is stringified with `str` (so `None` itself becomes the
string `"None"`, integers their decimal form, booleans `"True"`/`"False"`). -/
def normalize : Val → Val
  | .null => .str "None"
  | .str s => if nullTokens.contains s then .null else .str s
  | .int n => .str (intStr n)
  | .bool b => .str (if b then "True" else "False")
  | .list xs => .list (normalizeList xs)
  | .dict es => .dict (dedupEntries (normalizeEntries es))
/-- Elementwise normalization of a list. -/
def normalizeList : List Val → List Val
  | [] => []
  | x :: xs => normalize x :: normalizeList xs
/-- Pairwise normalization of dict entries (before `dict(...)` dedup). -/
def normalizeEntries : List (Val × Val) → List (Val × Val)
  | [] => []
  | (k, v) :: rest => (normalize k, normalize v) :: normalizeEntries rest
end

/-- Membership in `__empty_dict_vals = ['', '[]', '{}', None, [], {}]`
(Python `in`, i.e. `==` against each element). -/
def inEmptyDictVals : Val → Bool
  | .null => true
  | .str s => s == "" || s == "[]" || s == "\x7b\x7d"
  | .list xs => xs.isEmpty
  | .dict es => es.isEmpty
  | .int _ => false
  | .bool _ => false

/-- Membership in `__empty_list_vals = ['[]', '{}', None, [], {}]`
(the empty string is deliberately absent). -/
def inEmptyListVals : Val → Bool
  | .null => true
  | .str s => s == "[]" || s == "\x7b\x7d"
  | .list xs => xs.isEmpty
  | .dict es => es.isEmpty
  | .int _ => false
  | .bool _ => false

mutual
/-- Embedding of `YdiffDict.del_ignore_keys` (ydiff.py lines 280-335).
Exceptions other than the internally caught `KeyError` are modelled with
`Except`: the list branch's keep-case assigns `result_dict[key]` where `key`
is an unbound local, raising a `NameError`.  For every shape pairing other
than dict/dict and list/(singleton list) the function falls through to
`return result_dict` and yields the fresh empty dict. -/
def del_ignore_keys (src del : Val) : Except String Val :=
  match src, del with
  | .dict sd, .dict dd =>
      match digDict sd dd with
      | .error e => .error e
      | .ok es => .ok (.dict es)
  | .list sl, .list [dv] =>
      match digList sl dv 0 with
      | .error e => .error e
      | .ok es => .ok (.dict es.reverse)
  | _, _ => .ok (.dict [])
termination_by sizeOf src
/-- The dict/dict loop of `del_ignore_keys`: per key, keep it if absent from
the delete dict, recurse if both values are containers, drop if the delete
value is empty or `==`-equal, otherwise keep. -/
def digDict (sd dd : List (Val × Val)) : Except String (List (Val × Val)) :=
  match sd with
  | [] => .ok []
  | (k, sv) :: rest =>
      match lookupPy k dd with
      | none =>
          match digDict rest dd with
          | .error e => .error e
          | .ok es => .ok ((k, sv) :: es)
      | some dv =>
          if isContainer sv && isContainer dv then
            match del_ignore_keys sv dv with
            | .error e => .error e
            | .ok r =>
                match digDict rest dd with
                | .error e => .error e
                | .ok es => .ok ((k, r) :: es)
          else if inEmptyDictVals dv then digDict rest dd
          else if pyEq dv sv then digDict rest dd
          else
            match digDict rest dd with
            | .error e => .error e
            | .ok es => .ok ((k, sv) :: es)
termination_by sizeOf sd
/-- The list/list loop of `del_ignore_keys`, which Python runs over indices
in reverse; the result, success or failure, is index-independent, so it is
computed front-to-back here (in ascending index order, reversed by the
caller to match the reversed Python iteration's insertion order).  Recursing
entries are stored in `result_dict` under their integer index; the keep
branch raises `NameError` (`result_dict[key]` with `key` unbound). -/
def digList (sl : List Val) (dv : Val) (idx : Nat) :
    Except String (List (Val × Val)) :=
  match sl with
  | [] => .ok []
  | sv :: rest =>
      if isContainer sv && isContainer dv then
        match del_ignore_keys sv dv with
        | .error e => .error e
        | .ok r =>
            match digList rest dv (idx + 1) with
            | .error e => .error e
            | .ok es => .ok ((.int (Int.ofNat idx), r) :: es)
      else if inEmptyListVals dv then digList rest dv (idx + 1)
      else if pyEq dv sv then digList rest dv (idx + 1)
      else .error "NameError"
termination_by sizeOf sl
end

mutual
/-- Embedding of `YdiffDict.del_empty_keys` (ydiff.py lines 337-372): in a
dict, each value is recursively pruned if it is a container, then the key is
deleted when the (possibly pruned) value is in `__empty_dict_vals`; in a
list, elements are treated analogously against `__empty_list_vals`;
non-container arguments are returned unchanged.  (The Python 2 `items()`
snapshot makes deleting during iteration safe, and the in-place mutation
means surviving keys hold the pruned values.) -/
def del_empty_keys : Val → Val
  | .dict es => .dict (dekDict es)
  | .list xs => .list (dekList xs)
  | v => v
/-- The dict loop of `del_empty_keys`. -/
def dekDict : List (Val × Val) → List (Val × Val)
  | [] => []
  | (k, v) :: rest =>
      let v' := if isContainer v then del_empty_keys v else v
      if inEmptyDictVals v' then dekDict rest else (k, v') :: dekDict rest
/-- The list loop of `del_empty_keys` (reverse index iteration with
`pop(idx)` preserves the relative order of survivors). -/
def dekList : List Val → List Val
  | [] => []
  | v :: rest =>
      let v' := if isContainer v then del_empty_keys v else v
      if inEmptyListVals v' then dekList rest else v' :: dekList rest
end

/-! ### Text codec

`yaml.load` and `yaml.dump` are external library calls, not repository code.
They are modelled here, per the spec's description of the TextCodec (a
deterministic block-style serialization with PyYAML 1.1 implicit scalar
resolution), on a flat fragment: documents that are a single scalar, a block
sequence of scalars, or a block mapping from scalars to scalars, with `\x7b\x7d`
and `[]` as empty flow containers and single-quoted strings without inner
quotes.  Inputs outside the fragment (nested block collections, flow syntax,
anchors, multi-line scalars, ...) make the modelled loader return `none`.
The dumper omits the `...` document-end marker PyYAML prints after some
top-level scalars. -/

/-- Opening brace character (written via its code). -/
def braceO : Char := '\x7b'

/-- Closing brace character (written via its code). -/
def braceC : Char := '\x7d'

/-- Single-quote character (written via its code). -/
def squote : Char := '\x27'

/-- Blank characters inside a line. -/
def isWsChar (c : Char) : Bool := c == ' ' || c == '\t'

/-- Strip blanks from both ends of a line. -/
def trimChars (l : List Char) : List Char :=
  ((l.dropWhile isWsChar).reverse.dropWhile isWsChar).reverse

/-- A line consisting only of blanks (or nothing). -/
def isBlankLine (l : List Char) : Bool := l.all isWsChar

/-- Split a character stream at every newline (never returns `[]`). -/
def splitNl : List Char → List (List Char)
  | [] => [[]]
  | c :: rest =>
      if c == '\n' then [] :: splitNl rest
      else
        match splitNl rest with
        | [] => [[c]]
        | l :: ls => (c :: l) :: ls

/-- Join lines with newlines (inverse of `splitNl` on newline-free lines). -/
def joinNl : List (List Char) → List Char
  | [] => []
  | [l] => l
  | l :: ls => l ++ '\n' :: joinNl ls

/-- YAML 1.1 null tokens recognized by the modelled resolver. -/
def yamlNullTokens : List String := ["~", "null", "Null", "NULL"]

/-- YAML 1.1 true tokens recognized by the modelled resolver. -/
def yamlTrueTokens : List String :=
  ["true", "True", "TRUE", "yes", "Yes", "YES", "on", "On", "ON"]

/-- YAML 1.1 false tokens recognized by the modelled resolver. -/
def yamlFalseTokens : List String :=
  ["false", "False", "FALSE", "no", "No", "NO", "off", "Off", "OFF"]

/-- Decimal digits to a natural number. -/
def charsToNat (l : List Char) : Nat :=
  l.foldl (fun a c => a * 10 + (c.toNat - 48)) 0

/-- Characters the modelled fragment does not allow inside plain scalars. -/
def badPlainChar (c : Char) : Bool := c == ':' || c == '#' || c == '\n'

/-- Characters that disqualify the start of a plain scalar. -/
def badPlainStart (c : Char) : Bool :=
  c == '-' || c == squote || c == '"' || c == '[' || c == ']' ||
  c == braceO || c == braceC || c == '&' || c == '*' || c == '!' ||
  c == '|' || c == '>' || c == '%' || c == '@' || c == ',' || c == '?'

/-- The last character is blank (vacuously true for the empty line). -/
def lastIsWs (l : List Char) : Bool :=
  match l.getLast? with
  | some d => isWsChar d
  | none => true

/-- Shape of a negative decimal integer literal. -/
def negIntChars : List Char → Bool
  | '-' :: rest => !rest.isEmpty && rest.all (fun c => c.isDigit)
  | _ => false

/-- Implicit resolution of a plain (unquoted) scalar, modelling the PyYAML
1.1 resolver on the fragment: null/bool tokens, decimal integers, otherwise
a string; scalars the fragment cannot re-serialize faithfully resolve to
`none` (a parse failure). -/
def resolvePlain (l : List Char) : Option Val :=
  match l with
  | [] => none
  | c :: _ =>
      let s := String.mk l
      if yamlNullTokens.contains s then some .null
      else if yamlTrueTokens.contains s then some (.bool true)
      else if yamlFalseTokens.contains s then some (.bool false)
      else if l.all (fun c => c.isDigit) then some (.int (Int.ofNat (charsToNat l)))
      else if negIntChars l then some (.int (-(Int.ofNat (charsToNat (l.drop 1)))))
      else if l.any badPlainChar then none
      else if badPlainStart c then none
      else if isWsChar c || lastIsWs l then none
      else some (.str s)

/-- A single-quoted scalar; the modelled fragment has no escapes, so the
content may not contain a quote or newline. -/
def resolveQuoted (l : List Char) : Option Val :=
  match l with
  | q :: rest =>
      if q == squote && !rest.isEmpty && rest.getLast? == some squote &&
          (rest.dropLast).all (fun c => !(c == squote) && !(c == '\n')) then
        some (.str (String.mk rest.dropLast))
      else none
  | [] => none

/-- Resolve one (already trimmed) node of the fragment: empty flow
containers, quoted strings, or plain scalars. -/
def resolveNode (l : List Char) : Option Val :=
  if l == [braceO, braceC] then some (.dict [])
  else if l == ['[', ']'] then some (.list [])
  else
    match l with
    | q :: _ => if q == squote then resolveQuoted l else resolvePlain l
    | [] => none

/-- Parse a block-sequence item line `- node` (or a bare dash). -/
def parseItemLine (l : List Char) : Option Val :=
  match l with
  | '-' :: rest =>
      if rest.isEmpty then some .null
      else
        match rest with
        | ' ' :: rest2 =>
            if (trimChars rest2).isEmpty then some .null
            else resolveNode (trimChars rest2)
        | _ => none
  | _ => none

/-- Resolve a mapping key: a quoted or plain scalar. -/
def resolveKeyScalar (l : List Char) : Option Val :=
  match l with
  | q :: _ => if q == squote then resolveQuoted l else resolvePlain l
  | [] => none

/-- Parse a block-mapping line `key: node` (`key:` maps to null); an
indented line is outside the fragment and fails. -/
def parseKvLine (l : List Char) : Option (Val × Val) :=
  match l with
  | [] => none
  | c :: _ =>
      if isWsChar c then none
      else
        match l.dropWhile (fun c => !(c == ':')) with
        | [] => none
        | _ :: after =>
            match resolveKeyScalar (trimChars (l.takeWhile (fun c => !(c == ':')))) with
            | none => none
            | some k =>
                if isBlankLine after then some (k, .null)
                else
                  match after with
                  | ' ' :: _ =>
                      match resolveNode (trimChars after) with
                      | none => none
                      | some v => some (k, v)
                  | _ => none

/-- Parse every line with `f`, failing if any line fails. -/
def optMapParse (f : List Char → Option α) : List (List Char) → Option (List α)
  | [] => some []
  | l :: ls =>
      match f l with
      | none => none
      | some x =>
          match optMapParse f ls with
          | none => none
          | some xs => some (x :: xs)

/-- Modelled `yaml.load`: blank lines are ignored; an empty document is
`None`; otherwise the document is a block sequence, a block mapping (with
Python-dict duplicate-key semantics), or a single scalar node. -/
def yamlLoad (s : String) : Option Val :=
  let ms := (splitNl s.data).filter (fun l => !(isBlankLine l))
  match ms with
  | [] => some .null
  | [l] =>
      match resolveNode (trimChars l) with
      | some v => some v
      | none =>
          match parseItemLine l with
          | some v => some (.list [v])
          | none =>
              match parseKvLine l with
              | some kv => some (.dict (dedupEntries [kv]))
              | none => none
  | _ =>
      match optMapParse parseItemLine ms with
      | some items => some (.list items)
      | none =>
          match optMapParse parseKvLine ms with
          | some kvs => some (.dict (dedupEntries kvs))
          | none => none

/-- A string serializes plain only when the resolver would read it back as
exactly that string; otherwise it must be quoted. -/
def needsQuote (s : String) : Bool := !(resolvePlain s.data == some (.str s))

/-- Serialization of one scalar node (including empty flow containers). -/
def scalarRepr : Val → List Char
  | .null => "null".data
  | .str s => if needsQuote s then squote :: s.data ++ [squote] else s.data
  | .int n => (toString n).data
  | .bool b => (if b then "true" else "false").data
  | .list _ => ['[', ']']
  | .dict _ => [braceO, braceC]

/-- A value a single line can hold: scalars and empty containers. -/
def isScalarish : Val → Bool
  | .list (_ :: _) => false
  | .dict (_ :: _) => false
  | _ => true

mutual
/-- Modelled `yaml.dump(obj, default_flow_style=False)`: block-style lines
for non-empty collections, one scalar line otherwise. -/
def dumpLines : Val → List (List Char)
  | .dict (e :: es) => dumpDictLines (e :: es)
  | .list (x :: xs) => dumpListLines (x :: xs)
  | v => [scalarRepr v]
/-- Lines of a non-empty block mapping. -/
def dumpDictLines : List (Val × Val) → List (List Char)
  | [] => []
  | (k, v) :: rest =>
      (if isScalarish v then [scalarRepr k ++ ':' :: ' ' :: scalarRepr v]
       else (scalarRepr k ++ [':']) :: (dumpLines v).map (fun l => ' ' :: ' ' :: l))
      ++ dumpDictLines rest
/-- Lines of a non-empty block sequence. -/
def dumpListLines : List Val → List (List Char)
  | [] => []
  | v :: rest =>
      (if isScalarish v then ['-' :: ' ' :: scalarRepr v]
       else ['-'] :: (dumpLines v).map (fun l => ' ' :: ' ' :: l))
      ++ dumpListLines rest
end

/-- Modelled `yaml.dump`: the document's lines followed by a final newline. -/
def yamlDump (v : Val) : String := String.mk (joinNl (dumpLines v ++ [[]]))

/-- Embedding of `YdiffDict.__dict_to_yaml_str` (ydiff.py lines 218-227):
normalize, then dump (the modelled dumper is total, so the `yaml.YAMLError`
branch is unreachable). -/
def dict_to_yaml_str (v : Val) : String := yamlDump (normalize v)

/-- Embedding of `YdiffDict.__yaml_str_to_dict` (ydiff.py lines 229-242):
parse, normalize, and map a `None` result (tested with `is None`) to the
empty dict; `none` models the `yaml.YAMLError` → `self.__error` path. -/
def yaml_str_to_dict (s : String) : Option Val :=
  match yamlLoad s with
  | none => none
  | some r => some (if normalize r = Val.null then Val.dict [] else normalize r)

/-- Embedding of `YdiffDict.yaml2dict` for a string argument. -/
def yaml2dict_of_str (s : String) : Option Val := yaml_str_to_dict s

/-- Embedding of `YdiffDict.yaml2dict` for a dict argument (ydiff.py lines
270-278): dicts are first serialized with `__dict_to_yaml_str`, then parsed
back. -/
def yaml2dict_of_dict (v : Val) : Option Val := yaml_str_to_dict (dict_to_yaml_str v)

/-- The Ansible diff payload produced by `main`. -/
structure DiffResult where
  before : String
  after : String
  changed : Bool
deriving Repr, DecidableEq

/-- Embedding of `main` (ydiff.py lines 577-631) from the point where the
two inputs have been acquired as text: `assert_ignore_keys` requires the
ignore spec to be a dict; both inputs and the ignore spec are decoded via
`yaml2dict`; `del_ignore_keys` is applied to both sides; `del_empty_keys`
is applied to the target only when `diff_ignore_empty` is set; both sides
are re-serialized, `before` is the target, `after` is the source, and
`changed` is string inequality of the two serializations.  `Except.error`
models `fail_json`/uncaught exceptions aborting the module. -/
def ydiff_main (source target : String) (ignore_keys : Val)
    (ignore_empty : Bool) : Except String DiffResult :=
  if !isDictVal ignore_keys then .error "Invalid yaml for diff_ignore_keys"
  else
    match yaml2dict_of_dict ignore_keys with
    | none => .error "ParseError"
    | some ik =>
        match yaml2dict_of_str source with
        | none => .error "ParseError"
        | some src =>
            match yaml2dict_of_str target with
            | none => .error "ParseError"
            | some tgt =>
                match del_ignore_keys src ik with
                | .error e => .error e
                | .ok src2 =>
                    match del_ignore_keys tgt ik with
                    | .error e => .error e
                    | .ok tgt2 =>
                        let tgt3 := if ignore_empty then del_empty_keys tgt2 else tgt2
                        let sourceStr := dict_to_yaml_str src2
                        let targetStr := dict_to_yaml_str tgt3
                        .ok ⟨targetStr, sourceStr, !(sourceStr == targetStr)⟩

/-! ### Specification-side definitions for the amended claims C7 and C8 -/

/-- The emptiness set of the amended C7, spelled from the claim's words: the
spec value triggers an unconditional delete when it is (Python-`==` to)
Null, the empty Scalar, the literal Scalars `[]` and `\x7b\x7d`, the empty
Sequence, or the empty Mapping. -/
def specEmptyVals : List Val :=
  [Val.null, Val.str "", Val.str "[]", Val.str "\x7b\x7d", Val.list [], Val.dict []]

/-- A value is empty in mapping context when Python-equal to a member of
`specEmptyVals`. -/
def isSpecEmpty (v : Val) : Bool := specEmptyVals.any (fun e => pyEq v e)

/-- The element-removal trigger set of the amended C8 in sequence context:
as `specEmptyVals` but without the bare empty string, which is a legitimate
sequence element. -/
def specEmptySeqVals : List Val :=
  [Val.null, Val.str "[]", Val.str "\x7b\x7d", Val.list [], Val.dict []]

/-- A value is empty in sequence context when Python-equal to a member of
`specEmptySeqVals`. -/
def isSpecEmptySeq (v : Val) : Bool := specEmptySeqVals.any (fun e => pyEq v e)

/-- The mapping-against-mapping pruning policy as the amended C7 states it:
every key absent from the spec is kept unchanged; for a key present in
both, recurse (with `prune_by_ignore` itself, i.e. `del_ignore_keys`)
whenever both values are containers, checked before the emptiness test;
drop the key when the spec value is empty per `isSpecEmpty`; drop the key
when the spec value Python-equals the source value; otherwise keep the
source value unchanged. -/
def prune_mapping_spec (sd dd : List (Val × Val)) :
    Except String (List (Val × Val)) :=
  match sd with
  | [] => .ok []
  | (k, sv) :: rest =>
      match lookupPy k dd with
      | none => (prune_mapping_spec rest dd).map (fun es => (k, sv) :: es)
      | some dv =>
          if isContainer sv && isContainer dv then
            match del_ignore_keys sv dv with
            | .error e => .error e
            | .ok r => (prune_mapping_spec rest dd).map (fun es => (k, r) :: es)
          else if isSpecEmpty dv then prune_mapping_spec rest dd
          else if pyEq dv sv then prune_mapping_spec rest dd
          else (prune_mapping_spec rest dd).map (fun es => (k, sv) :: es)

mutual
/-- The empty-value pruner as the amended C8 states it: inside a Mapping,
recursively prune each value first, then drop the key when the pruned value
is in the mapping-context emptiness set; inside a Sequence, recursively
prune each element and remove it when it is in the sequence-context set (a
bare empty string is retained); a standalone scalar is returned unchanged. -/
def prune_empty_spec : Val → Val
  | .dict es => .dict (pruneSpecDict es)
  | .list xs => .list (pruneSpecList xs)
  | v => v
/-- Mapping-context loop of `prune_empty_spec`. -/
def pruneSpecDict : List (Val × Val) → List (Val × Val)
  | [] => []
  | (k, v) :: rest =>
      let v' := prune_empty_spec v
      if isSpecEmpty v' then pruneSpecDict rest else (k, v') :: pruneSpecDict rest
/-- Sequence-context loop of `prune_empty_spec`. -/
def pruneSpecList : List Val → List Val
  | [] => []
  | v :: rest =>
      let v' := prune_empty_spec v
      if isSpecEmptySeq v' then pruneSpecList rest else v' :: pruneSpecList rest
end

theorem isSpecEmpty_eq : ∀ v : Val, isSpecEmpty v = inEmptyDictVals v := by
  intro v
  cases v with
  | null => simp [isSpecEmpty, specEmptyVals, pyEq, inEmptyDictVals]
  | str s =>
      simp [isSpecEmpty, specEmptyVals, pyEq, inEmptyDictVals, Bool.or_assoc]
  | int n => simp [isSpecEmpty, specEmptyVals, pyEq, inEmptyDictVals]
  | bool b => simp [isSpecEmpty, specEmptyVals, pyEq, inEmptyDictVals]
  | list xs =>
      cases xs <;>
        simp [isSpecEmpty, specEmptyVals, pyEq, pyEqList, inEmptyDictVals]
  | dict es =>
      cases es <;>
        simp [isSpecEmpty, specEmptyVals, pyEq, pyEqSub, pyEqFind, inEmptyDictVals]

theorem isSpecEmptySeq_eq : ∀ v : Val, isSpecEmptySeq v = inEmptyListVals v := by
  intro v
  cases v with
  | null => simp [isSpecEmptySeq, specEmptySeqVals, pyEq, inEmptyListVals]
  | str s =>
      simp [isSpecEmptySeq, specEmptySeqVals, pyEq, inEmptyListVals, Bool.or_assoc]
  | int n => simp [isSpecEmptySeq, specEmptySeqVals, pyEq, inEmptyListVals]
  | bool b => simp [isSpecEmptySeq, specEmptySeqVals, pyEq, inEmptyListVals]
  | list xs =>
      cases xs <;>
        simp [isSpecEmptySeq, specEmptySeqVals, pyEq, pyEqList, inEmptyListVals]
  | dict es =>
      cases es <;>
        simp [isSpecEmptySeq, specEmptySeqVals, pyEq, pyEqSub, pyEqFind, inEmptyListVals]

theorem del_empty_keys_scalar (v : Val) (h : isContainer v = false) :
    del_empty_keys v = v := by
  cases v <;> simp_all [isContainer, del_empty_keys]

mutual
theorem dek_eq_spec : ∀ v : Val, del_empty_keys v = prune_empty_spec v
  | .null => rfl
  | .str s => rfl
  | .int n => rfl
  | .bool b => rfl
  | .list xs => by
      rw [del_empty_keys, prune_empty_spec, dekList_eq_spec xs]
  | .dict es => by
      rw [del_empty_keys, prune_empty_spec, dekDict_eq_spec es]
theorem dekDict_eq_spec : ∀ es : List (Val × Val), dekDict es = pruneSpecDict es
  | [] => rfl
  | (k, v) :: rest => by
      have hv := dek_eq_spec v
      have hr := dekDict_eq_spec rest
      rw [dekDict, pruneSpecDict]
      cases hc : isContainer v with
      | true => simp only [hc, if_true, hv, hr, isSpecEmpty_eq]
      | false =>
          simp only [hc, if_false, hr, isSpecEmpty_eq, Bool.false_eq_true,
            ← hv, del_empty_keys_scalar v hc]
theorem dekList_eq_spec : ∀ xs : List Val, dekList xs = pruneSpecList xs
  | [] => rfl
  | v :: rest => by
      have hv := dek_eq_spec v
      have hr := dekList_eq_spec rest
      rw [dekList, pruneSpecList]
      cases hc : isContainer v with
      | true => simp only [hc, if_true, hv, hr, isSpecEmptySeq_eq]
      | false =>
          simp only [hc, if_false, hr, isSpecEmptySeq_eq, Bool.false_eq_true,
            ← hv, del_empty_keys_scalar v hc]
end

theorem digDict_eq_spec :
    ∀ sd dd : List (Val × Val), digDict sd dd = prune_mapping_spec sd dd := by
  intro sd dd
  induction sd with
  | nil => rw [digDict, prune_mapping_spec]
  | cons e rest ih =>
      obtain ⟨k, sv⟩ := e
      rw [digDict, prune_mapping_spec]
      cases hdv : lookupPy k dd with
      | none => rw [ih]; cases prune_mapping_spec rest dd <;> rfl
      | some dv =>
          simp only []
          rw [isSpecEmpty_eq]
          cases hc : (isContainer sv && isContainer dv) with
          | true =>
              simp only [if_true]
              cases del_ignore_keys sv dv with
              | error e => rfl
              | ok r => rw [ih]; cases prune_mapping_spec rest dd <;> rfl
          | false =>
              simp only [Bool.false_eq_true, if_false]
              cases inEmptyDictVals dv with
              | true => simp only [if_true, ih]
              | false =>
                  simp only [Bool.false_eq_true, if_false]
                  cases pyEq dv sv with
                  | true => simp only [if_true, ih]
                  | false =>
                      simp only [Bool.false_eq_true, if_false]
                      rw [ih]; cases prune_mapping_spec rest dd <;> rfl

theorem dekDict_no_literal_bracket :
    ∀ (es : List (Val × Val)) (p : Val × Val), p ∈ dekDict es →
      p.2 ≠ Val.str "[]" ∧ p.2 ≠ Val.str "\x7b\x7d" := by
  intro es
  induction es with
  | nil => intro p hp; simp [dekDict] at hp
  | cons e rest ih =>
      obtain ⟨k, v⟩ := e
      intro p hp
      rw [dekDict] at hp
      set v' := if isContainer v then del_empty_keys v else v with hv'
      by_cases he : inEmptyDictVals v' = true
      · rw [if_pos he] at hp
        exact ih p hp
      · rw [if_neg he] at hp
        rcases List.mem_cons.mp hp with h | h
        · subst h
          constructor
          · intro hx
            apply he
            have hx' : v' = Val.str "[]" := hx
            rw [hx']
            rfl
          · intro hx
            apply he
            have hx' : v' = Val.str "\x7b\x7d" := hx
            rw [hx']
            rfl
        · exact ih p h

theorem dekList_no_literal_bracket :
    ∀ (xs : List Val) (v : Val), v ∈ dekList xs →
      v ≠ Val.str "[]" ∧ v ≠ Val.str "\x7b\x7d" := by
  intro xs
  induction xs with
  | nil => intro v hv; simp [dekList] at hv
  | cons x rest ih =>
      intro v hv
      rw [dekList] at hv
      set x' := if isContainer x then del_empty_keys x else x with hx'
      by_cases he : inEmptyListVals x' = true
      · rw [if_pos he] at hv
        exact ih v hv
      · rw [if_neg he] at hv
        rcases List.mem_cons.mp hv with h | h
        · subst h
          constructor
          · intro hx; apply he; rw [hx]; rfl
          · intro hx; apply he; rw [hx]; rfl
        · exact ih v h

/-! ### Round-trip development (C9)

The round-trip property quantifies over the image of `yaml_str_to_dict`.
The predicates below capture that image inside the modelled flat fragment:
strings the dumper can re-serialize (`strOK`), scalar positions after
normalization (`goodScalar`), mapping keys (`goodKey`), and whole decoded
trees (`goodTree`). -/

/-- The dumper can round-trip a string when it either re-resolves plain to
itself or contains no quote and no newline (then it is single-quoted). -/
def strOK (s : String) : Bool :=
  (resolvePlain s.data == some (Val.str s)) ||
    s.data.all (fun c => !(c == squote) && !(c == '\n'))

/-- A scalar position of a decoded tree: `Null`, a re-serializable string
that is not one of the three parser-level null tokens, or an empty
container. -/
def goodScalar : Val → Bool
  | .null => true
  | .str s => strOK s && !(s == "null") && !(s == "Null") && !(s == "NULL")
  | .list xs => xs.isEmpty
  | .dict es => es.isEmpty
  | _ => false

/-- A mapping key of a decoded tree: additionally colon-free, so the
serialized `key: value` line splits back at the right colon. -/
def goodKey : Val → Bool
  | .null => true
  | .str s =>
      strOK s && s.data.all (fun c => !(c == ':')) &&
        !(s == "null") && !(s == "Null") && !(s == "NULL")
  | _ => false

/-- Key lists without Python-equal duplicates (each key differs from every
later one). -/
def kuKeys : List Val → Bool
  | [] => true
  | k :: ks => ks.all (fun k' => !(pyEq k k')) && kuKeys ks

/-- A decoded tree of the flat fragment: a good scalar, a sequence of good
scalars, or a mapping with good colon-free keys (pairwise distinct) and
good scalar values. -/
def goodTree : Val → Bool
  | .dict es =>
      es.all (fun kv => goodKey kv.1 && goodScalar kv.2) && kuKeys (es.map (·.1))
  | .list xs => xs.all goodScalar
  | v => goodScalar v

/-- Scalars as the raw parser can produce them (before normalization):
`None`, re-serializable strings, integers, booleans, empty containers. -/
def rawScalar : Val → Bool
  | .null => true
  | .str s => strOK s
  | .int _ => true
  | .bool _ => true
  | .list xs => xs.isEmpty
  | .dict es => es.isEmpty

/-- Keys as the raw parser can produce them: scalar and colon-free. -/
def rawKey : Val → Bool
  | .null => true
  | .str s => strOK s && s.data.all (fun c => !(c == ':'))
  | .int _ => true
  | .bool _ => true
  | _ => false

/-- A raw parsed document of the flat fragment. -/
def rawOK : Val → Bool
  | .dict es => es.all (fun kv => rawKey kv.1 && rawScalar kv.2)
  | .list xs => xs.all rawScalar
  | v => rawScalar v

theorem splitNl_no_newline :
    ∀ l : List Char, '\n' ∉ l → splitNl l = [l] := by
  intro l
  induction l with
  | nil => intro _; rfl
  | cons c rest ih =>
      intro h
      simp only [List.mem_cons, not_or] at h
      have hc : (c == '\n') = false := by
        apply beq_eq_false_iff_ne.mpr
        exact fun he => h.1 he.symm
      simp [splitNl, hc, ih h.2]

theorem splitNl_append_newline :
    ∀ (a rest : List Char), '\n' ∉ a →
      splitNl (a ++ '\n' :: rest) = a :: splitNl rest := by
  intro a
  induction a with
  | nil => intro rest _; simp [splitNl]
  | cons c t ih =>
      intro rest h
      simp only [List.mem_cons, not_or] at h
      have hc : (c == '\n') = false := by
        apply beq_eq_false_iff_ne.mpr
        exact fun he => h.1 he.symm
      simp [splitNl, hc, ih rest h.2]

theorem splitNl_joinNl :
    ∀ ls : List (List Char), ls ≠ [] → (∀ l ∈ ls, '\n' ∉ l) →
      splitNl (joinNl ls) = ls := by
  intro ls
  induction ls with
  | nil => intro h _; exact absurd rfl h
  | cons a t ih =>
      intro _ h
      cases t with
      | nil => exact splitNl_no_newline a (h a (by simp))
      | cons b t' =>
          have hrec : splitNl (joinNl (b :: t')) = b :: t' := by
            apply ih
            · intro hh; cases hh
            · intro l hl
              exact h l (by simp [hl])
          rw [joinNl, splitNl_append_newline a _ (h a (by simp)), hrec]
          intro hh
          cases hh

theorem dropWhile_eq_self {p : Char → Bool} :
    ∀ {l : List Char}, (∀ c, l.head? = some c → p c = false) → l.dropWhile p = l := by
  intro l h
  cases l with
  | nil => rfl
  | cons c rest => simp [List.dropWhile, h c rfl]

theorem trimChars_eq_self {l : List Char}
    (h1 : ∀ c, l.head? = some c → isWsChar c = false)
    (h2 : ∀ c, l.getLast? = some c → isWsChar c = false) :
    trimChars l = l := by
  rw [trimChars, dropWhile_eq_self h1, dropWhile_eq_self, List.reverse_reverse]
  intro c hc
  rw [List.head?_reverse] at hc
  exact h2 c hc

theorem takeWhile_append_eq {p : Char → Bool} :
    ∀ (a b : List Char), (∀ c ∈ a, p c = true) →
      (∀ x xs, b = x :: xs → p x = false) →
      (a ++ b).takeWhile p = a ∧ (a ++ b).dropWhile p = b := by
  intro a
  induction a with
  | nil =>
      intro b _ hb
      cases b with
      | nil => exact ⟨rfl, rfl⟩
      | cons x xs => simp [List.takeWhile, List.dropWhile, hb x xs rfl]
  | cons c t ih =>
      intro b hp hb
      have hc : p c = true := hp c (by simp)
      have := ih b (fun d hd => hp d (by simp [hd])) hb
      refine ⟨?_, ?_⟩ <;>
        simp [List.takeWhile_cons, List.dropWhile_cons, hc, this.1, this.2]

theorem resolvePlain_str_facts {l : List Char} {s : String}
    (h : resolvePlain l = some (Val.str s)) :
    s = String.mk l ∧ l.any badPlainChar = false ∧
      (∀ c t, l = c :: t → badPlainStart c = false ∧ isWsChar c = false) ∧
      lastIsWs l = false ∧ l ≠ [] := by
  cases l with
  | nil => simp [resolvePlain] at h
  | cons c t =>
      rw [resolvePlain] at h
      split_ifs at h with h1 h2 h3 h4 h5 h6 h7 h8
      all_goals try (exfalso; simp at h; done)
      simp only [Option.some.injEq, Val.str.injEq] at h
      simp only [Bool.not_eq_true] at h6 h7
      simp only [Bool.or_eq_true, not_or, Bool.not_eq_true] at h8
      refine ⟨h.symm, h6, ?_, h8.2, by intro hh; cases hh⟩
      intro c' t' he
      cases he
      exact ⟨h7, h8.1⟩

theorem resolvePlain_of_plainSelf {s : String}
    (h : (resolvePlain s.data == some (Val.str s)) = true) :
    resolvePlain s.data = some (Val.str s) := by
  exact eq_of_beq h

theorem resolveQuoted_repr {s : String}
    (h : s.data.all (fun c => !(c == squote) && !(c == '\n')) = true) :
    resolveQuoted (squote :: s.data ++ [squote]) = some (Val.str s) := by
  have h2 : (s.data ++ [squote]).isEmpty = false := by
    cases s.data <;> rfl
  simp [resolveQuoted, h2, List.getLast?_concat, List.dropLast_concat, h]

theorem strOK_quoted {s : String}
    (hs : strOK s = true)
    (hq : (resolvePlain s.data == some (Val.str s)) = false) :
    s.data.all (fun c => !(c == squote) && !(c == '\n')) = true := by
  rw [strOK, hq, Bool.false_or] at hs
  exact hs

/-- Shape facts about the serialized form of a good scalar: nonempty, no
newline, head neither blank nor a dash, last character not blank. -/
theorem scalarRepr_shape {w : Val} (h : goodScalar w = true) :
    (∀ c t, scalarRepr w = c :: t →
      isWsChar c = false ∧ (c == '-') = false) ∧
    lastIsWs (scalarRepr w) = false ∧ '\n' ∉ scalarRepr w ∧ scalarRepr w ≠ [] := by
  cases w with
  | null => refine ⟨?_, by decide, by decide, by decide⟩; intro c t he; cases he; decide
  | int n => exact absurd h (by simp [goodScalar])
  | bool b => exact absurd h (by simp [goodScalar])
  | list xs =>
      have : xs = [] := by
        cases xs with
        | nil => rfl
        | cons a b => exact absurd h (by simp [goodScalar])
      subst this
      refine ⟨?_, by decide, by decide, by decide⟩; intro c t he; cases he; decide
  | dict es =>
      have : es = [] := by
        cases es with
        | nil => rfl
        | cons a b => exact absurd h (by simp [goodScalar])
      subst this
      refine ⟨?_, by decide, by decide, by decide⟩; intro c t he; cases he; decide
  | str s =>
      have hs : strOK s = true := by
        simp only [goodScalar, Bool.and_eq_true] at h
        exact h.1.1.1
      by_cases hq : (resolvePlain s.data == some (Val.str s)) = true
      · have hp := resolvePlain_of_plainSelf hq
        obtain ⟨_, hbad, hhead, hlast, hne⟩ := resolvePlain_str_facts hp
        have hrepr : scalarRepr (Val.str s) = s.data := by
          simp [scalarRepr, needsQuote, hq]
        rw [hrepr]
        refine ⟨?_, hlast, ?_, hne⟩
        · intro c t he
          obtain ⟨hbs, hws⟩ := hhead c t he
          refine ⟨hws, ?_⟩
          rw [badPlainStart] at hbs
          simp only [Bool.or_eq_false_iff] at hbs
          exact hbs.1.1.1.1.1.1.1.1.1.1.1.1.1.1.1
        · intro hmem
          have : s.data.any badPlainChar = true :=
            List.any_eq_true.mpr ⟨'\n', hmem, by decide⟩
          rw [this] at hbad
          cases hbad
      · have hq' : (resolvePlain s.data == some (Val.str s)) = false := by
          simp only [Bool.not_eq_true] at hq
          exact hq
        have hall := strOK_quoted hs hq'
        have hrepr : scalarRepr (Val.str s) = squote :: s.data ++ [squote] := by
          simp [scalarRepr, needsQuote, hq']
        rw [hrepr]
        refine ⟨?_, ?_, ?_, by simp⟩
        · intro c t he
          rw [List.cons_append] at he
          cases he
          exact ⟨by decide, by decide⟩
        · rw [lastIsWs]
          have hg : (squote :: s.data ++ [squote]).getLast? = some squote := by
            rw [show squote :: s.data ++ [squote] = (squote :: s.data) ++ [squote] from rfl,
              List.getLast?_concat]
          rw [hg]
          decide
        · intro hmem
          rw [List.cons_append, List.mem_cons, List.mem_append] at hmem
          rcases hmem with h1 | h2 | h3
          · cases h1
          · have := List.all_eq_true.mp hall _ h2
            simp at this
          · simp at h3
            cases h3

theorem badPlainStart_elim {c : Char} (h : badPlainStart c = false) :
    (c == '-') = false ∧ (c == squote) = false ∧ (c == '[') = false ∧
      (c == braceO) = false := by
  rw [badPlainStart] at h
  simp only [Bool.or_eq_false_iff] at h
  refine ⟨?_, ?_, ?_, ?_⟩ <;> tauto

theorem trim_scalarRepr {w : Val} (h : goodScalar w = true) :
    trimChars (scalarRepr w) = scalarRepr w := by
  obtain ⟨hhead, hlast, _, _⟩ := scalarRepr_shape h
  apply trimChars_eq_self
  · intro c hc
    cases hrepr : scalarRepr w with
    | nil => rw [hrepr] at hc; cases hc
    | cons c0 t0 =>
        rw [hrepr] at hc
        injection hc with hh
        exact hh ▸ (hhead c0 t0 hrepr).1
  · intro c hc
    rw [lastIsWs, hc] at hlast
    exact hlast

theorem resolveNode_repr {w : Val} (h : goodScalar w = true) :
    resolveNode (scalarRepr w) = some w := by
  cases w with
  | null => rfl
  | int n => exact absurd h (by simp [goodScalar])
  | bool b => exact absurd h (by simp [goodScalar])
  | list xs =>
      have hx : xs = [] := by
        cases xs with
        | nil => rfl
        | cons a b => exact absurd h (by simp [goodScalar])
      subst hx; rfl
  | dict es =>
      have hx : es = [] := by
        cases es with
        | nil => rfl
        | cons a b => exact absurd h (by simp [goodScalar])
      subst hx; rfl
  | str s =>
      have hs : strOK s = true := by
        simp only [goodScalar, Bool.and_eq_true] at h
        exact h.1.1.1
      by_cases hq : (resolvePlain s.data == some (Val.str s)) = true
      · have hp := resolvePlain_of_plainSelf hq
        obtain ⟨_, _, hhead, _, hne⟩ := resolvePlain_str_facts hp
        have hrepr : scalarRepr (Val.str s) = s.data := by
          simp [scalarRepr, needsQuote, hq]
        rw [hrepr]
        cases hdata : s.data with
        | nil => exact absurd hdata hne
        | cons c0 t0 =>
            obtain ⟨hbs, _⟩ := hhead c0 t0 hdata
            obtain ⟨_, hsq, hbr, hbo⟩ := badPlainStart_elim hbs
            have hb1 : ((c0 :: t0) == [braceO, braceC]) = false := by
              apply beq_eq_false_iff_ne.mpr
              intro he
              injection he with he1 _
              rw [he1] at hbo
              simp at hbo
            have hb2 : ((c0 :: t0) == ['[', ']']) = false := by
              apply beq_eq_false_iff_ne.mpr
              intro he
              injection he with he1 _
              rw [he1] at hbr
              simp at hbr
            rw [resolveNode.eq_def, hb1, hb2]
            simp only [Bool.false_eq_true, if_false, hsq]
            rw [← hdata, hp]
      · have hq' : (resolvePlain s.data == some (Val.str s)) = false := by
          simp only [Bool.not_eq_true] at hq
          exact hq
        have hall := strOK_quoted hs hq'
        have hrepr : scalarRepr (Val.str s) = squote :: s.data ++ [squote] := by
          simp [scalarRepr, needsQuote, hq']
        rw [hrepr]
        have hb1 : ((squote :: s.data ++ [squote]) == [braceO, braceC]) = false := by
          apply beq_eq_false_iff_ne.mpr
          intro he
          rw [List.cons_append] at he
          injection he with he1 _
          exact absurd he1 (by decide)
        have hb2 : ((squote :: s.data ++ [squote]) == ['[', ']']) = false := by
          apply beq_eq_false_iff_ne.mpr
          intro he
          rw [List.cons_append] at he
          injection he with he1 _
          exact absurd he1 (by decide)
        rw [resolveNode.eq_def, hb1, hb2]
        simp only [Bool.false_eq_true, if_false, List.cons_append]
        have hqq : (squote == squote) = true := by decide
        rw [hqq]
        simp only [if_true]
        rw [← List.cons_append]
        exact resolveQuoted_repr hall

theorem natChars_digits : ∀ n : Nat, ∀ c ∈ natChars n, c.isDigit = true := by
  intro n
  induction n using Nat.strong_induction_on with
  | _ n ih =>
      intro c hc
      rw [natChars] at hc
      split_ifs at hc with h
      · simp only [List.mem_singleton] at hc
        subst hc
        interval_cases n <;> decide
      · rw [List.mem_append] at hc
        rcases hc with h1 | h2
        · exact ih (n / 10) (Nat.div_lt_self (by omega) (by omega)) c h1
        · simp only [List.mem_singleton] at h2
          subst h2
          have : n % 10 < 10 := Nat.mod_lt n (by omega)
          interval_cases hm : (n % 10) <;> simp_all <;> decide

theorem natChars_ne_nil : ∀ n : Nat, natChars n ≠ [] := by
  intro n
  rw [natChars]
  split_ifs with h
  · simp
  · simp

theorem intStr_clean (n : Int) :
    ∀ c ∈ (intStr n).data, c.isDigit = true ∨ c = '-' := by
  intro c hc
  rw [intStr] at hc
  split_ifs at hc with h
  · simp only [List.mem_cons] at hc
    rcases hc with h1 | h2
    · exact Or.inr h1
    · exact Or.inl (natChars_digits _ c h2)
  · exact Or.inl (natChars_digits _ c hc)

theorem intStr_not_token (n : Int) (t : String)
    (ht : ∃ c ∈ t.data, c.isDigit = false ∧ c ≠ '-') : intStr n ≠ t := by
  intro he
  obtain ⟨c, hc, hd, hm⟩ := ht
  rw [← he] at hc
  rcases intStr_clean n c hc with h1 | h2
  · rw [h1] at hd; cases hd
  · exact hm h2

/-! #### Dict-construction (dedup) lemmas -/

theorem insertEntry_of_not_mem {acc : List (Val × Val)} {kv : Val × Val}
    (h : ∀ e ∈ acc, pyEq e.1 kv.1 = false) :
    insertEntry acc kv = acc ++ [kv] := by
  rw [insertEntry, if_neg]
  intro hany
  rw [List.any_eq_true] at hany
  obtain ⟨e, he, hp⟩ := hany
  rw [h e he] at hp
  cases hp

theorem foldl_insert_eq_append :
    ∀ (l acc : List (Val × Val)),
      (∀ e ∈ acc, ∀ kv ∈ l, pyEq e.1 kv.1 = false) →
      kuKeys (l.map (·.1)) = true →
      List.foldl insertEntry acc l = acc ++ l := by
  intro l
  induction l with
  | nil => intro acc _ _; simp
  | cons kv rest ih =>
      intro acc hcross hku
      rw [List.map_cons, kuKeys, Bool.and_eq_true] at hku
      rw [List.foldl_cons,
        insertEntry_of_not_mem (fun e he => hcross e he kv (by simp)),
        ih (acc ++ [kv]) ?_ hku.2, List.append_assoc]
      rfl
      intro e he kv' hkv'
      rw [List.mem_append, List.mem_singleton] at he
      rcases he with h1 | h2
      · exact hcross e h1 kv' (by simp [hkv'])
      · subst h2
        have := List.all_eq_true.mp hku.1 kv'.1 (List.mem_map_of_mem (·.1) hkv')
        simp only [Bool.not_eq_eq_eq_not, Bool.not_true] at this
        exact this

theorem dedupEntries_of_kuKeys {l : List (Val × Val)}
    (h : kuKeys (l.map (·.1)) = true) : dedupEntries l = l := by
  rw [dedupEntries, foldl_insert_eq_append l [] (by intro e he; cases he) h]
  rfl

theorem kuKeys_append_singleton :
    ∀ (ks : List Val) (k0 : Val), kuKeys ks = true →
      (∀ k ∈ ks, pyEq k k0 = false) → kuKeys (ks ++ [k0]) = true := by
  intro ks
  induction ks with
  | nil => intro k0 _ _; rfl
  | cons k t ih =>
      intro k0 hku hall
      rw [kuKeys, Bool.and_eq_true] at hku
      rw [List.cons_append, kuKeys, Bool.and_eq_true]
      refine ⟨?_, ih k0 hku.2 (fun k' hk' => hall k' (by simp [hk']))⟩
      rw [List.all_append]
      simp only [Bool.and_eq_true]
      refine ⟨hku.1, ?_⟩
      simp only [List.all_cons, List.all_nil, Bool.and_true]
      rw [hall k (by simp)]
      rfl

theorem insertEntry_keys_or {acc : List (Val × Val)} {kv : Val × Val} :
    (insertEntry acc kv).map (·.1) = acc.map (·.1) ∨
      insertEntry acc kv = acc ++ [kv] := by
  rw [insertEntry]
  split_ifs with h
  · left
    rw [List.map_map]
    apply List.map_congr_left
    intro e _
    by_cases hp : pyEq e.1 kv.1 = true <;> simp [hp]
  · right; rfl

theorem kuKeys_foldl_insert :
    ∀ (l acc : List (Val × Val)), kuKeys (acc.map (·.1)) = true →
      kuKeys ((List.foldl insertEntry acc l).map (·.1)) = true := by
  intro l
  induction l with
  | nil => intro acc h; exact h
  | cons kv rest ih =>
      intro acc hacc
      rw [List.foldl_cons]
      apply ih
      rcases @insertEntry_keys_or acc kv with h | h
      · rw [h]; exact hacc
      · rw [h]
        by_cases hmem : ∀ e ∈ acc, pyEq e.1 kv.1 = false
        · rw [List.map_append]
          exact kuKeys_append_singleton _ _ hacc
            (fun k hk => by
              rw [List.mem_map] at hk
              obtain ⟨e, he, hek⟩ := hk
              exact hek ▸ hmem e he)
        · exfalso
          push_neg at hmem
          obtain ⟨e, he, hep⟩ := hmem
          have hany : acc.any (fun e => pyEq e.1 kv.1) = true :=
            List.any_eq_true.mpr ⟨e, he, by
              cases hp : pyEq e.1 kv.1
              · exact absurd hp hep
              · rfl⟩
          rw [insertEntry, if_pos hany] at h
          have := congrArg List.length h
          simp at this

theorem kuKeys_dedupEntries (l : List (Val × Val)) :
    kuKeys ((dedupEntries l).map (·.1)) = true :=
  kuKeys_foldl_insert l [] rfl

theorem foldl_insert_pred {P Q : Val → Bool} :
    ∀ (l acc : List (Val × Val)),
      (∀ p ∈ acc, P p.1 = true ∧ Q p.2 = true) →
      (∀ p ∈ l, P p.1 = true ∧ Q p.2 = true) →
      ∀ p ∈ List.foldl insertEntry acc l, P p.1 = true ∧ Q p.2 = true := by
  intro l
  induction l with
  | nil => intro acc hacc _ p hp; exact hacc p hp
  | cons kv0 rest ih =>
      intro acc hacc hl p hp
      rw [List.foldl_cons] at hp
      refine ih (insertEntry acc kv0) ?_ (fun r hr => hl r (by simp [hr])) p hp
      intro q hq
      rw [insertEntry] at hq
      split_ifs at hq with hany
      · rw [List.mem_map] at hq
        obtain ⟨e, he, heq⟩ := hq
        by_cases hp' : pyEq e.1 kv0.1 = true
        · rw [if_pos hp'] at heq
          subst heq
          exact ⟨(hacc e he).1, (hl kv0 (by simp)).2⟩
        · rw [if_neg hp'] at heq
          subst heq
          exact hacc e he
      · rw [List.mem_append, List.mem_singleton] at hq
        rcases hq with h1 | h2
        · exact hacc q h1
        · rw [h2]
          exact hl kv0 (by simp)

theorem dedupEntries_pred {P Q : Val → Bool} {l : List (Val × Val)}
    (h : ∀ p ∈ l, P p.1 = true ∧ Q p.2 = true) :
    ∀ p ∈ dedupEntries l, P p.1 = true ∧ Q p.2 = true :=
  foldl_insert_pred l [] (by intro p hp; cases hp) h

/-! #### Normalization lemmas on the flat fragment -/

theorem normalizeEntries_eq_map (es : List (Val × Val)) :
    normalizeEntries es = es.map (fun kv => (normalize kv.1, normalize kv.2)) := by
  induction es with
  | nil => rfl
  | cons kv rest ih =>
      obtain ⟨k, v⟩ := kv
      rw [normalizeEntries, ih, List.map_cons]

theorem normalizeList_eq_map (xs : List Val) :
    normalizeList xs = xs.map normalize := by
  induction xs with
  | nil => rfl
  | cons x rest ih => rw [normalizeList, ih, List.map_cons]

theorem contains_nullTokens_false {s : String}
    (h : nullTokens.contains s = false) :
    (s == "None") = false ∧ (s == "null") = false ∧ (s == "Null") = false ∧
      (s == "NULL") = false := by
  rw [nullTokens] at h
  simp only [List.contains_eq_any_beq, List.any_cons, List.any_nil,
    Bool.or_eq_false_iff] at h
  exact ⟨h.1, h.2.1, h.2.2.1, h.2.2.2.1⟩

theorem contains_nullTokens_true {s : String}
    (h : nullTokens.contains s = true) :
    s = "None" ∨ s = "null" ∨ s = "Null" ∨ s = "NULL" := by
  rw [nullTokens] at h
  simp only [List.contains_eq_any_beq, List.any_cons, List.any_nil,
    Bool.or_eq_true, beq_iff_eq] at h
  tauto

theorem goodKey_goodScalar {k : Val} (h : goodKey k = true) : goodScalar k = true := by
  cases k with
  | null => rfl
  | str s =>
      simp only [goodKey, Bool.and_eq_true] at h
      simp only [goodScalar, Bool.and_eq_true]
      exact ⟨⟨⟨h.1.1.1.1, h.1.1.2⟩, h.1.2⟩, h.2⟩
  | _ => exact absurd h (by simp [goodKey])

theorem norm2_scalar {v : Val} (h : goodScalar v = true) :
    normalize (normalize v) = v := by
  cases v with
  | null => rfl
  | int n => exact absurd h (by simp [goodScalar])
  | bool b => exact absurd h (by simp [goodScalar])
  | list xs =>
      have : xs = [] := by
        cases xs with
        | nil => rfl
        | cons a b => exact absurd h (by simp [goodScalar])
      subst this; rfl
  | dict es =>
      have : es = [] := by
        cases es with
        | nil => rfl
        | cons a b => exact absurd h (by simp [goodScalar])
      subst this; rfl
  | str s =>
      simp only [goodScalar, Bool.and_eq_true] at h
      by_cases hn : s = "None"
      · subst hn; rfl
      · have hc : nullTokens.contains s = false := by
          rw [nullTokens]
          simp only [List.contains_eq_any_beq, List.any_cons, List.any_nil,
            Bool.or_eq_false_iff]
          refine ⟨beq_eq_false_iff_ne.mpr hn, ?_, ?_, ?_, trivial⟩
          · simpa using h.1.1.2
          · simpa using h.1.2
          · simpa using h.2
        rw [normalize, hc]
        simp only [Bool.false_eq_true, if_false]
        rw [normalize, hc]
        simp

theorem goodScalar_norm {v : Val} (h : goodScalar v = true) :
    goodScalar (normalize v) = true := by
  cases v with
  | null => decide
  | int n => exact absurd h (by simp [goodScalar])
  | bool b => exact absurd h (by simp [goodScalar])
  | list xs =>
      have : xs = [] := by
        cases xs with
        | nil => rfl
        | cons a b => exact absurd h (by simp [goodScalar])
      subst this; decide
  | dict es =>
      have : es = [] := by
        cases es with
        | nil => rfl
        | cons a b => exact absurd h (by simp [goodScalar])
      subst this; decide
  | str s =>
      cases hc : nullTokens.contains s with
      | true => rw [normalize, hc]; rfl
      | false =>
          rw [normalize, hc]
          simpa using h

theorem goodKey_norm {k : Val} (h : goodKey k = true) :
    goodKey (normalize k) = true := by
  cases k with
  | null => decide
  | str s =>
      cases hc : nullTokens.contains s with
      | true => rw [normalize, hc]; rfl
      | false =>
          rw [normalize, hc]
          simpa using h
  | _ => exact absurd h (by simp [goodKey])

theorem normKey_inj {a b : Val} (ha : goodKey a = true) (hb : goodKey b = true)
    (hne : pyEq a b = false) :
    pyEq (normalize a) (normalize b) = false := by
  cases a with
  | null =>
      cases b with
      | null => simp [pyEq] at hne
      | str t =>
          cases hc : nullTokens.contains t with
          | true =>
              have := contains_nullTokens_true hc
              simp only [goodKey, Bool.and_eq_true] at hb
              rcases this with h1 | h1 | h1 | h1
              · subst h1
                rw [normalize, normalize, hc]
                simp [pyEq]
              · subst h1; simp at hb
              · subst h1; simp at hb
              · subst h1; simp at hb
          | false =>
              obtain ⟨hn, _, _, _⟩ := contains_nullTokens_false hc
              rw [normalize, normalize, hc]
              simp only [Bool.false_eq_true, if_false]
              simp only [pyEq]
              rw [BEq.comm] at hn
              exact hn
      | _ => exact absurd hb (by simp [goodKey])
  | str s =>
      cases b with
      | null =>
          cases hc : nullTokens.contains s with
          | true =>
              have := contains_nullTokens_true hc
              simp only [goodKey, Bool.and_eq_true] at ha
              rcases this with h1 | h1 | h1 | h1
              · subst h1
                rw [normalize, normalize, hc]
                simp [pyEq]
              · subst h1; simp at ha
              · subst h1; simp at ha
              · subst h1; simp at ha
          | false =>
              obtain ⟨hn, _, _, _⟩ := contains_nullTokens_false hc
              rw [normalize, normalize, hc]
              simp only [Bool.false_eq_true, if_false]
              simp only [pyEq]
              exact hn
      | str t =>
          have hst : (s == t) = false := by
            simpa [pyEq] using hne
          cases hcs : nullTokens.contains s with
          | true =>
              have hs4 := contains_nullTokens_true hcs
              simp only [goodKey, Bool.and_eq_true] at ha
              have hsN : s = "None" := by
                rcases hs4 with h1 | h1 | h1 | h1
                · exact h1
                · subst h1; simp at ha
                · subst h1; simp at ha
                · subst h1; simp at ha
              cases hct : nullTokens.contains t with
              | true =>
                  have ht4 := contains_nullTokens_true hct
                  simp only [goodKey, Bool.and_eq_true] at hb
                  have htN : t = "None" := by
                    rcases ht4 with h1 | h1 | h1 | h1
                    · exact h1
                    · subst h1; simp at hb
                    · subst h1; simp at hb
                    · subst h1; simp at hb
                  exfalso
                  rw [hsN, htN] at hst
                  simp at hst
              | false =>
                  rw [normalize, normalize, hcs, hct]
                  simp [pyEq]
          | false =>
              cases hct : nullTokens.contains t with
              | true =>
                  rw [normalize, normalize, hcs, hct]
                  simp [pyEq]
              | false =>
                  rw [normalize, normalize, hcs, hct]
                  simp only [Bool.false_eq_true, if_false]
                  simpa [pyEq] using hst
      | _ => exact absurd hb (by simp [goodKey])
  | _ => exact absurd ha (by simp [goodKey])

theorem digit_ne_facts {c : Char} (h : c.isDigit = true) :
    (c == squote) = false ∧ (c == '\n') = false ∧ (c == ':') = false := by
  refine ⟨?_, ?_, ?_⟩ <;>
    (apply beq_eq_false_iff_ne.mpr; intro he; subst he; exact absurd h (by decide))

theorem intStr_strOK (n : Int) : strOK (intStr n) = true := by
  rw [strOK, Bool.or_eq_true]
  right
  rw [List.all_eq_true]
  intro c hc
  rcases intStr_clean n c hc with h1 | h2
  · obtain ⟨hq, hn, _⟩ := digit_ne_facts h1
    rw [hq, hn]
    rfl
  · subst h2; decide

theorem intStr_colon_free (n : Int) :
    (intStr n).data.all (fun c => !(c == ':')) = true := by
  rw [List.all_eq_true]
  intro c hc
  rcases intStr_clean n c hc with h1 | h2
  · rw [(digit_ne_facts h1).2.2]; rfl
  · subst h2; decide

theorem intStr_beq_token_false (n : Int) (t : String)
    (ht : ∃ c ∈ t.data, c.isDigit = false ∧ c ≠ '-') :
    (intStr n == t) = false :=
  beq_eq_false_iff_ne.mpr (intStr_not_token n t ht)

theorem rawScalar_norm_good {v : Val} (h : rawScalar v = true) :
    goodScalar (normalize v) = true := by
  cases v with
  | null => decide
  | bool b => cases b <;> decide
  | int n =>
      show goodScalar (Val.str (intStr n)) = true
      rw [goodScalar, intStr_strOK,
        intStr_beq_token_false n "null" (by decide),
        intStr_beq_token_false n "Null" (by decide),
        intStr_beq_token_false n "NULL" (by decide)]
      rfl
  | list xs =>
      have : xs = [] := by
        cases xs with
        | nil => rfl
        | cons a b => exact absurd h (by simp [rawScalar])
      subst this; decide
  | dict es =>
      have : es = [] := by
        cases es with
        | nil => rfl
        | cons a b => exact absurd h (by simp [rawScalar])
      subst this; decide
  | str s =>
      have hs : strOK s = true := h
      cases hc : nullTokens.contains s with
      | true => rw [normalize, hc]; rfl
      | false =>
          rw [normalize, hc]
          simp only [Bool.false_eq_true, if_false]
          obtain ⟨_, h2, h3, h4⟩ := contains_nullTokens_false hc
          rw [goodScalar, hs, h2, h3, h4]
          rfl

theorem rawKey_norm_good {k : Val} (h : rawKey k = true) :
    goodKey (normalize k) = true := by
  cases k with
  | null => decide
  | bool b => cases b <;> decide
  | int n =>
      show goodKey (Val.str (intStr n)) = true
      rw [goodKey, intStr_strOK, intStr_colon_free,
        intStr_beq_token_false n "null" (by decide),
        intStr_beq_token_false n "Null" (by decide),
        intStr_beq_token_false n "NULL" (by decide)]
      rfl
  | list xs => exact absurd h (by simp [rawKey])
  | dict es => exact absurd h (by simp [rawKey])
  | str s =>
      rw [rawKey, Bool.and_eq_true] at h
      cases hc : nullTokens.contains s with
      | true => rw [normalize, hc]; rfl
      | false =>
          rw [normalize, hc]
          simp only [Bool.false_eq_true, if_false]
          obtain ⟨_, h2, h3, h4⟩ := contains_nullTokens_false hc
          rw [goodKey, h.1, h.2, h2, h3, h4]
          rfl

/-! #### Parser-output invariants -/

theorem resolveQuoted_out {l : List Char} {v : Val} (h : resolveQuoted l = some v) :
    ∃ s : String, v = Val.str s ∧
      s.data.all (fun c => !(c == squote) && !(c == '\n')) = true ∧
      ∀ c ∈ s.data, c ∈ l := by
  cases l with
  | nil => simp [resolveQuoted] at h
  | cons q rest =>
      rw [resolveQuoted] at h
      split_ifs at h with hcond
      · simp only [Option.some.injEq] at h
        subst h
        simp only [Bool.and_eq_true] at hcond
        refine ⟨String.mk rest.dropLast, rfl, hcond.2, ?_⟩
        intro c hc
        exact List.mem_cons_of_mem q ((List.dropLast_sublist rest).mem hc)

theorem strOK_of_quoted_chars {s : String}
    (h : s.data.all (fun c => !(c == squote) && !(c == '\n')) = true) :
    strOK s = true := by
  rw [strOK, h, Bool.or_true]

theorem resolvePlain_out {l : List Char} {v : Val} (h : resolvePlain l = some v) :
    rawScalar v = true := by
  cases l with
  | nil => simp [resolvePlain] at h
  | cons c t =>
      rw [resolvePlain] at h
      split_ifs at h with h1 h2 h3 h4 h5 h6 h7 h8
      all_goals (simp only [Option.some.injEq] at h; subst h)
      · rfl
      · rfl
      · rfl
      · rfl
      · rfl
      · show strOK (String.mk (c :: t)) = true
        rw [strOK, Bool.or_eq_true]
        left
        rw [beq_iff_eq]
        show resolvePlain (c :: t) = some (Val.str (String.mk (c :: t)))
        rw [resolvePlain, if_neg h1, if_neg h2, if_neg h3, if_neg h4, if_neg h5,
          if_neg h6, if_neg h7, if_neg h8]

theorem resolvePlain_str_colon_free {l : List Char} {s : String}
    (h : resolvePlain l = some (Val.str s)) :
    s.data.all (fun c => !(c == ':')) = true := by
  obtain ⟨hs, hbad, _, _, _⟩ := resolvePlain_str_facts h
  rw [List.all_eq_true]
  intro c hc
  have hcl : c ∈ l := by
    rw [hs] at hc
    exact hc
  cases hco : c == ':' with
  | false => rfl
  | true =>
      exfalso
      rw [beq_iff_eq] at hco
      subst hco
      have : l.any badPlainChar = true := List.any_eq_true.mpr ⟨':', hcl, by decide⟩
      rw [this] at hbad
      cases hbad

theorem resolvePlain_shape {l : List Char} {v : Val} (h : resolvePlain l = some v) :
    v = Val.null ∨ (∃ b, v = Val.bool b) ∨ (∃ n, v = Val.int n) ∨
      (∃ s, v = Val.str s) := by
  cases l with
  | nil => simp [resolvePlain] at h
  | cons c t =>
      rw [resolvePlain] at h
      split_ifs at h <;> simp only [Option.some.injEq] at h <;> subst h
      · exact Or.inl rfl
      · exact Or.inr (Or.inl ⟨true, rfl⟩)
      · exact Or.inr (Or.inl ⟨false, rfl⟩)
      · exact Or.inr (Or.inr (Or.inl ⟨_, rfl⟩))
      · exact Or.inr (Or.inr (Or.inl ⟨_, rfl⟩))
      · exact Or.inr (Or.inr (Or.inr ⟨_, rfl⟩))

theorem resolveNode_out {l : List Char} {v : Val} (h : resolveNode l = some v) :
    rawScalar v = true := by
  rw [resolveNode.eq_def] at h
  split_ifs at h with h1 h2
  · simp only [Option.some.injEq] at h; subst h; rfl
  · simp only [Option.some.injEq] at h; subst h; rfl
  · cases l with
    | nil => cases h
    | cons q t =>
        simp only [] at h
        split_ifs at h with hq
        · obtain ⟨s, hv, hclean, _⟩ := resolveQuoted_out h
          subst hv
          exact strOK_of_quoted_chars hclean
        · exact resolvePlain_out h

theorem mem_trimChars {c : Char} {l : List Char} (h : c ∈ trimChars l) : c ∈ l := by
  rw [trimChars] at h
  rw [List.mem_reverse] at h
  have h1 := (List.dropWhile_sublist _).mem h
  rw [List.mem_reverse] at h1
  exact (List.dropWhile_sublist _).mem h1

theorem resolveKeyScalar_out {l : List Char} {k : Val}
    (h : resolveKeyScalar l = some k)
    (hcol : ∀ c ∈ l, (c == ':') = false) : rawKey k = true := by
  cases l with
  | nil => cases h
  | cons q t =>
      rw [resolveKeyScalar] at h
      split_ifs at h with hq
      · obtain ⟨s, hv, hclean, hsub⟩ := resolveQuoted_out h
        subst hv
        rw [rawKey, Bool.and_eq_true]
        refine ⟨strOK_of_quoted_chars hclean, ?_⟩
        rw [List.all_eq_true]
        intro c hc
        rw [hcol c (hsub c hc)]
        rfl
      · rcases resolvePlain_shape h with h1 | ⟨b, h1⟩ | ⟨n, h1⟩ | ⟨s, h1⟩
        · subst h1; rfl
        · subst h1; rfl
        · subst h1; rfl
        · subst h1
          rw [rawKey, Bool.and_eq_true]
          exact ⟨resolvePlain_out h, resolvePlain_str_colon_free h⟩

theorem parseItemLine_out {l : List Char} {v : Val}
    (h : parseItemLine l = some v) : rawScalar v = true := by
  rw [parseItemLine.eq_def] at h
  split at h
  · split_ifs at h with h1
    · simp only [Option.some.injEq] at h; subst h; rfl
    · split at h
      · split_ifs at h with h2
        · simp only [Option.some.injEq] at h; subst h; rfl
        · exact resolveNode_out h
      · cases h
  · cases h

theorem parseKvLine_out {l : List Char} {kv : Val × Val}
    (h : parseKvLine l = some kv) :
    rawKey kv.1 = true ∧ rawScalar kv.2 = true := by
  cases l with
  | nil => simp [parseKvLine] at h
  | cons c0 rest0 =>
      rw [parseKvLine.eq_def] at h
      simp only [] at h
      split_ifs at h with hws
      cases hdrop : List.dropWhile (fun c => !(c == ':')) (c0 :: rest0) with
        | nil => rw [hdrop] at h; cases h
        | cons ch after =>
            rw [hdrop] at h
            cases hk : resolveKeyScalar
                (trimChars (List.takeWhile (fun c => !(c == ':')) (c0 :: rest0))) with
            | none => rw [hk] at h; cases h
            | some k =>
                rw [hk] at h
                simp only [] at h
                have hkey : rawKey k = true := by
                  apply resolveKeyScalar_out hk
                  intro c hc
                  have hc2 := mem_trimChars hc
                  have := List.mem_takeWhile_imp hc2
                  simpa using this
                split_ifs at h with hblank
                · simp only [Option.some.injEq] at h
                  subst h
                  exact ⟨hkey, rfl⟩
                · split at h
                  · split at h
                    · cases h
                    · rename_i v hv
                      simp only [Option.some.injEq] at h
                      subst h
                      exact ⟨hkey, resolveNode_out hv⟩
                  · cases h

theorem optMapParse_out {f : List Char → Option α} {P : α → Bool}
    (hf : ∀ (l : List Char) (x : α), f l = some x → P x = true) :
    ∀ {ls : List (List Char)} {xs : List α},
      optMapParse f ls = some xs → ∀ x ∈ xs, P x = true := by
  intro ls
  induction ls with
  | nil =>
      intro xs h x hx
      simp only [optMapParse, Option.some.injEq] at h
      subst h
      cases hx
  | cons l rest ih =>
      intro xs h x hx
      rw [optMapParse] at h
      cases hfl : f l with
      | none => rw [hfl] at h; cases h
      | some v =>
          rw [hfl] at h
          cases hrest : optMapParse f rest with
          | none => rw [hrest] at h; cases h
          | some ys =>
              rw [hrest] at h
              simp only [Option.some.injEq] at h
              subst h
              rcases List.mem_cons.mp hx with h1 | h2
              · rw [h1]; exact hf l v hfl
              · exact ih hrest x h2

theorem dedupEntries_singleton (kv : Val × Val) : dedupEntries [kv] = [kv] := by
  rw [dedupEntries, List.foldl_cons, List.foldl_nil, insertEntry]
  simp

theorem rawScalar_rawOK {v : Val} (h : rawScalar v = true) : rawOK v = true := by
  cases v with
  | list xs =>
      have : xs = [] := by
        cases xs with
        | nil => rfl
        | cons a b => exact absurd h (by simp [rawScalar])
      subst this; rfl
  | dict es =>
      have : es = [] := by
        cases es with
        | nil => rfl
        | cons a b => exact absurd h (by simp [rawScalar])
      subst this; rfl
  | null => rfl
  | str s => exact h
  | int n => rfl
  | bool b => rfl

theorem yamlLoad_rawOK {s : String} {u : Val} (h : yamlLoad s = some u) :
    rawOK u = true := by
  rw [yamlLoad] at h
  split at h
  · simp only [Option.some.injEq] at h; subst h; rfl
  · rename_i l
    split at h
    · rename_i v hv
      simp only [Option.some.injEq] at h
      subst h
      exact rawScalar_rawOK (resolveNode_out hv)
    · split at h
      · rename_i v hv
        simp only [Option.some.injEq] at h
        subst h
        have := parseItemLine_out hv
        simp [rawOK, this]
      · split at h
        · rename_i kv hkv
          simp only [Option.some.injEq] at h
          subst h
          obtain ⟨h1, h2⟩ := parseKvLine_out hkv
          rw [rawOK, dedupEntries_singleton]
          simp [h1, h2]
        · cases h
  · split at h
    · rename_i items hitems
      simp only [Option.some.injEq] at h
      subst h
      rw [rawOK, List.all_eq_true]
      exact optMapParse_out (fun l v hv => parseItemLine_out hv) hitems
    · split at h
      · rename_i kvs hkvs
        simp only [Option.some.injEq] at h
        subst h
        rw [rawOK, List.all_eq_true]
        intro p hp
        have hmem : ∀ q ∈ kvs, rawKey q.1 = true ∧ rawScalar q.2 = true := by
          intro q hq
          have hstep : ∀ r ∈ kvs, (rawKey r.1 && rawScalar r.2) = true :=
            optMapParse_out (fun l kv hkv => by
              obtain ⟨a, b⟩ := parseKvLine_out hkv
              simp [a, b]) hkvs
          have := hstep q hq
          rw [Bool.and_eq_true] at this
          exact this
        have hk := @dedupEntries_pred rawKey rawScalar kvs hmem p hp
        rw [Bool.and_eq_true]
        exact hk
      · cases h

theorem goodTree_of_goodScalar {v : Val} (hv : goodScalar v = true) :
    goodTree v = true := by
  cases v with
  | null => rfl
  | str s => exact hv
  | int n => exact absurd hv (by simp [goodScalar])
  | bool b => exact absurd hv (by simp [goodScalar])
  | list xs =>
      have : xs = [] := by
        cases xs with
        | nil => rfl
        | cons a b => exact absurd hv (by simp [goodScalar])
      subst this; rfl
  | dict es =>
      have : es = [] := by
        cases es with
        | nil => rfl
        | cons a b => exact absurd hv (by simp [goodScalar])
      subst this; rfl

theorem rawOK_norm_goodTree {u : Val} (h : rawOK u = true) :
    goodTree (normalize u) = true := by
  cases u with
  | null => exact goodTree_of_goodScalar (@rawScalar_norm_good Val.null rfl)
  | str s => exact goodTree_of_goodScalar (rawScalar_norm_good h)
  | int n => exact goodTree_of_goodScalar (rawScalar_norm_good rfl)
  | bool b => exact goodTree_of_goodScalar (rawScalar_norm_good rfl)
  | list xs =>
      show goodTree (Val.list (normalizeList xs)) = true
      rw [goodTree, normalizeList_eq_map, List.all_eq_true]
      intro x hx
      rw [List.mem_map] at hx
      obtain ⟨y, hy, hxy⟩ := hx
      rw [rawOK, List.all_eq_true] at h
      exact hxy ▸ rawScalar_norm_good (h y hy)
  | dict es =>
      show goodTree (Val.dict (dedupEntries (normalizeEntries es))) = true
      rw [goodTree, Bool.and_eq_true]
      constructor
      · rw [List.all_eq_true]
        intro p hp
        have := @dedupEntries_pred goodKey goodScalar (normalizeEntries es) ?_ p hp
        · rw [Bool.and_eq_true]
          exact this
        · intro q hq
          rw [normalizeEntries_eq_map, List.mem_map] at hq
          obtain ⟨e, he, heq⟩ := hq
          rw [rawOK, List.all_eq_true] at h
          have he2 := h e he
          rw [Bool.and_eq_true] at he2
          subst heq
          exact ⟨rawKey_norm_good he2.1, rawScalar_norm_good he2.2⟩
      · exact kuKeys_dedupEntries _

theorem decode_good {s : String} {t : Val} (h : yaml_str_to_dict s = some t) :
    goodTree t = true ∧ t ≠ Val.null := by
  rw [yaml_str_to_dict] at h
  cases hl : yamlLoad s with
  | none => rw [hl] at h; cases h
  | some u =>
      rw [hl] at h
      simp only [Option.some.injEq] at h
      subst h
      have hg := rawOK_norm_goodTree (yamlLoad_rawOK hl)
      by_cases hn : normalize u = Val.null
      · rw [if_pos hn]
        exact ⟨rfl, by intro hh; cases hh⟩
      · rw [if_neg hn]
        exact ⟨hg, hn⟩

theorem kuKeys_map_norm {ks : List Val} (hgood : ∀ k ∈ ks, goodKey k = true)
    (h : kuKeys ks = true) : kuKeys (ks.map normalize) = true := by
  induction ks with
  | nil => rfl
  | cons k t ih =>
      rw [kuKeys, Bool.and_eq_true] at h
      rw [List.map_cons, kuKeys, Bool.and_eq_true]
      constructor
      · rw [List.all_eq_true]
        intro x hx
        rw [List.mem_map] at hx
        obtain ⟨y, hy, hxy⟩ := hx
        subst hxy
        have h1 := List.all_eq_true.mp h.1 y hy
        have h2 : pyEq k y = false := by
          cases hp : pyEq k y
          · rfl
          · rw [hp] at h1; cases h1
        rw [normKey_inj (hgood k (by simp)) (hgood y (by simp [hy])) h2]
        rfl
      · exact ih (fun k' hk' => hgood k' (by simp [hk'])) h.2

theorem norm_entries_keys (es : List (Val × Val)) :
    (normalizeEntries es).map (·.1) = (es.map (·.1)).map normalize := by
  rw [normalizeEntries_eq_map, List.map_map, List.map_map]
  rfl

theorem norm_tree_good {t : Val} (h : goodTree t = true) :
    goodTree (normalize t) = true ∧ normalize (normalize t) = t := by
  cases t with
  | null => exact ⟨rfl, rfl⟩
  | int n => exact absurd h (by simp [goodTree, goodScalar])
  | bool b => exact absurd h (by simp [goodTree, goodScalar])
  | str s =>
      have hs : goodScalar (Val.str s) = true := h
      exact ⟨goodTree_of_goodScalar (goodScalar_norm hs), norm2_scalar hs⟩
  | list xs =>
      rw [goodTree, List.all_eq_true] at h
      constructor
      · show goodTree (Val.list (normalizeList xs)) = true
        rw [goodTree, normalizeList_eq_map, List.all_eq_true]
        intro x hx
        rw [List.mem_map] at hx
        obtain ⟨y, hy, hxy⟩ := hx
        exact hxy ▸ goodScalar_norm (h y hy)
      · show normalize (Val.list (normalizeList xs)) = Val.list xs
        rw [normalize, normalizeList_eq_map, normalizeList_eq_map, List.map_map,
          Val.list.injEq]
        rw [show xs.map (normalize ∘ normalize) = xs.map id from
          List.map_congr_left (fun a ha => norm2_scalar (h a ha)), List.map_id]
  | dict es =>
      rw [goodTree, Bool.and_eq_true, List.all_eq_true] at h
      have hkv : ∀ p ∈ es, goodKey p.1 = true ∧ goodScalar p.2 = true := by
        intro p hp
        have := h.1 p hp
        rw [Bool.and_eq_true] at this
        exact this
      have hku : kuKeys (es.map (·.1)) = true := h.2
      have hkeys : kuKeys ((normalizeEntries es).map (·.1)) = true := by
        rw [norm_entries_keys]
        apply kuKeys_map_norm ?_ hku
        intro k hk
        rw [List.mem_map] at hk
        obtain ⟨p, hp, hpk⟩ := hk
        exact hpk ▸ (hkv p hp).1
      have hstep : normalize (Val.dict es) = Val.dict (normalizeEntries es) := by
        rw [normalize, dedupEntries_of_kuKeys hkeys]
      constructor
      · rw [hstep, goodTree, Bool.and_eq_true]
        refine ⟨?_, hkeys⟩
        rw [List.all_eq_true]
        intro p hp
        rw [normalizeEntries_eq_map, List.mem_map] at hp
        obtain ⟨e, he, hep⟩ := hp
        subst hep
        rw [Bool.and_eq_true]
        exact ⟨goodKey_norm (hkv e he).1, goodScalar_norm (hkv e he).2⟩
      · rw [hstep]
        have hkeys2 : kuKeys ((normalizeEntries (normalizeEntries es)).map (·.1)) = true := by
          rw [norm_entries_keys, norm_entries_keys,
            show ((es.map (·.1)).map normalize).map normalize =
              (es.map (·.1)).map (normalize ∘ normalize) from List.map_map .. ]
          rw [show (es.map (·.1)).map (normalize ∘ normalize) =
              (es.map (·.1)).map id from List.map_congr_left ?_, List.map_id]
          · exact hku
          · intro k hk
            rw [List.mem_map] at hk
            obtain ⟨p, hp, hpk⟩ := hk
            exact hpk ▸ norm2_scalar (goodKey_goodScalar (hkv p hp).1)
        rw [normalize, dedupEntries_of_kuKeys hkeys2, Val.dict.injEq,
          normalizeEntries_eq_map, normalizeEntries_eq_map, List.map_map]
        rw [show es.map ((fun kv => (normalize kv.1, normalize kv.2)) ∘
            (fun kv => (normalize kv.1, normalize kv.2))) = es.map id from
          List.map_congr_left ?_, List.map_id]
        intro p hp
        show (normalize (normalize p.1), normalize (normalize p.2)) = p
        rw [norm2_scalar (goodKey_goodScalar (hkv p hp).1),
          norm2_scalar (hkv p hp).2]

/-! #### Dump/load inverse -/

theorem goodScalar_isScalarish {v : Val} (h : goodScalar v = true) :
    isScalarish v = true := by
  cases v with
  | list xs =>
      cases xs with
      | nil => rfl
      | cons a b => exact absurd h (by simp [goodScalar])
  | dict es =>
      cases es with
      | nil => rfl
      | cons a b => exact absurd h (by simp [goodScalar])
  | _ => rfl

theorem tokens_head_contains_false (ts : List String) (c : Char) (t : List Char)
    (h : ∀ s ∈ ts, s.data.head? ≠ some c) :
    ts.contains (String.mk (c :: t)) = false := by
  rw [List.contains_eq_any_beq]
  rw [show (ts.any fun x => String.mk (c :: t) == x) = false ↔
      ∀ s ∈ ts, (String.mk (c :: t) == s) = false from by
    rw [← Bool.not_eq_true, List.any_eq_true]
    constructor
    · intro hna s hs
      cases hb : (String.mk (c :: t) == s)
      · rfl
      · exact absurd ⟨s, hs, hb⟩ hna
    · intro hall ⟨s, hs, hb⟩
      rw [hall s hs] at hb
      cases hb]
  intro s hs
  apply beq_eq_false_iff_ne.mpr
  intro he
  exact h s hs (by rw [← he]; rfl)

theorem tokens_colon_contains_false (ts : List String) (l : List Char)
    (hc : ':' ∈ l) (h : ∀ s ∈ ts, ':' ∉ s.data) :
    ts.contains (String.mk l) = false := by
  rw [List.contains_eq_any_beq]
  cases hb : ts.any fun x => String.mk l == x with
  | false => rfl
  | true =>
      exfalso
      rw [List.any_eq_true] at hb
      obtain ⟨s, hs, hbs⟩ := hb
      have : String.mk l = s := eq_of_beq hbs
      apply h s hs
      rw [← this]
      exact hc

theorem negIntChars_cons_ne {c : Char} {t : List Char}
    (h : (c == '-') = false) : negIntChars (c :: t) = false := by
  rw [negIntChars.eq_def]
  split
  · rename_i heq
    injection heq with h1 _
    rw [h1] at h
    simp at h
  · rfl

theorem all_isDigit_false_of_mem {l : List Char} {c : Char} (hc : c ∈ l)
    (hd : c.isDigit = false) : (l.all fun c => c.isDigit) = false := by
  cases hall : l.all fun c => c.isDigit with
  | false => rfl
  | true =>
      exfalso
      have := List.all_eq_true.mp hall c hc
      rw [hd] at this
      cases this

theorem resolvePlain_colon_none {l : List Char} (hc : ':' ∈ l)
    (hhead : ∀ c t, l = c :: t → (c == '-') = false) : resolvePlain l = none := by
  cases l with
  | nil => rfl
  | cons c t =>
      rw [resolvePlain]
      have h1 : yamlNullTokens.contains (String.mk (c :: t)) = false :=
        tokens_colon_contains_false _ _ hc (by decide)
      have h2 : yamlTrueTokens.contains (String.mk (c :: t)) = false :=
        tokens_colon_contains_false _ _ hc (by decide)
      have h3 : yamlFalseTokens.contains (String.mk (c :: t)) = false :=
        tokens_colon_contains_false _ _ hc (by decide)
      have h4 : ((c :: t).all fun c => c.isDigit) = false :=
        all_isDigit_false_of_mem hc (by decide)
      have h5 : negIntChars (c :: t) = false := negIntChars_cons_ne (hhead c t rfl)
      have h6 : (c :: t).any badPlainChar = true :=
        List.any_eq_true.mpr ⟨':', hc, by decide⟩
      rw [h1, h2, h3, h4, h5, h6]
      simp

theorem resolvePlain_dash_space_none (r : List Char) :
    resolvePlain ('-' :: ' ' :: r) = none := by
  rw [resolvePlain]
  have h1 : yamlNullTokens.contains (String.mk ('-' :: ' ' :: r)) = false :=
    tokens_head_contains_false _ _ _ (by decide)
  have h2 : yamlTrueTokens.contains (String.mk ('-' :: ' ' :: r)) = false :=
    tokens_head_contains_false _ _ _ (by decide)
  have h3 : yamlFalseTokens.contains (String.mk ('-' :: ' ' :: r)) = false :=
    tokens_head_contains_false _ _ _ (by decide)
  have h4 : (('-' :: ' ' :: r).all fun c => c.isDigit) = false := by
    simp [List.all_cons]
  have h5 : negIntChars ('-' :: ' ' :: r) = false := by
    rw [negIntChars]
    simp [List.all_cons]
  rw [h1, h2, h3, h4, h5]
  simp only [Bool.false_eq_true, if_false]
  split_ifs with h6 h7 h8
  · rfl
  · rfl
  · rfl
  · exact absurd (by decide : badPlainStart '-' = true) h7

theorem all_false_of_mem {p : Char → Bool} {l : List Char} {c : Char}
    (hc : c ∈ l) (hp : p c = false) : l.all p = false := by
  cases hall : l.all p with
  | false => rfl
  | true =>
      exfalso
      have := List.all_eq_true.mp hall c hc
      rw [hp] at this
      cases this

theorem beq_false_of_mem_not_mem {l m : List Char} {c : Char}
    (hc : c ∈ l) (hm : c ∉ m) : (l == m) = false := by
  apply beq_eq_false_iff_ne.mpr
  intro he
  exact hm (he ▸ hc)

theorem cons_beq_cons_head_false {c d : Char} {t u : List Char}
    (h : (c == d) = false) : ((c :: t) == (d :: u)) = false := by
  apply beq_eq_false_iff_ne.mpr
  intro he
  injection he with h1 _
  rw [h1] at h
  simp at h

theorem lastIsWs_false_getLast {l : List Char} (h : lastIsWs l = false)
    {c : Char} (hc : l.getLast? = some c) : isWsChar c = false := by
  rw [lastIsWs, hc] at h
  exact h

theorem trimChars_cons_ws {c : Char} (hc : isWsChar c = true) (l : List Char) :
    trimChars (c :: l) = trimChars l := by
  rw [trimChars, trimChars]
  have hstep : (c :: l).dropWhile isWsChar = l.dropWhile isWsChar := by
    simp [List.dropWhile_cons, hc]
  rw [hstep]

/-- The serialized form of a good mapping key contains no colon (this is
what makes the `key: value` line split back at the separating colon). -/
theorem keyRepr_colon_free {k : Val} (hk : goodKey k = true) :
    ∀ c ∈ scalarRepr k, (c == ':') = false := by
  cases k with
  | null => decide
  | int n => exact absurd hk (by simp [goodKey])
  | bool b => exact absurd hk (by simp [goodKey])
  | list xs => exact absurd hk (by simp [goodKey])
  | dict es => exact absurd hk (by simp [goodKey])
  | str s =>
      simp only [goodKey, Bool.and_eq_true] at hk
      obtain ⟨⟨⟨⟨hs, hcol⟩, _⟩, _⟩, _⟩ := hk
      by_cases hq : (resolvePlain s.data == some (Val.str s)) = true
      · have hrepr : scalarRepr (Val.str s) = s.data := by
          simp [scalarRepr, needsQuote, hq]
        rw [hrepr]
        intro c hc
        simpa using List.all_eq_true.mp hcol c hc
      · have hq' : (resolvePlain s.data == some (Val.str s)) = false := by
          simp only [Bool.not_eq_true] at hq
          exact hq
        have hrepr : scalarRepr (Val.str s) = squote :: s.data ++ [squote] := by
          simp [scalarRepr, needsQuote, hq']
        rw [hrepr]
        intro c hc
        rw [List.cons_append, List.mem_cons, List.mem_append] at hc
        rcases hc with h1 | h2 | h3
        · subst h1; decide
        · simpa using List.all_eq_true.mp hcol c h2
        · rw [List.mem_singleton] at h3; subst h3; decide

/-- The serialized form of a good mapping key either does not start with a
quote, or is entirely single-quoted (and then its tail ends in a quote). -/
theorem keyRepr_squote_cases {k : Val} (hk : goodKey k = true) {kc : Char}
    {kt : List Char} (hrk : scalarRepr k = kc :: kt) :
    (kc == squote) = false ∨ ∃ s : String, kt = s.data ++ [squote] := by
  cases k with
  | null =>
      left
      have hres : scalarRepr Val.null = 'n' :: 'u' :: 'l' :: 'l' :: [] := rfl
      rw [hres] at hrk
      injection hrk with h1 _
      rw [← h1]
      decide
  | int n => exact absurd hk (by simp [goodKey])
  | bool b => exact absurd hk (by simp [goodKey])
  | list xs => exact absurd hk (by simp [goodKey])
  | dict es => exact absurd hk (by simp [goodKey])
  | str s =>
      by_cases hq : (resolvePlain s.data == some (Val.str s)) = true
      · left
        have hp := resolvePlain_of_plainSelf hq
        obtain ⟨_, _, hhead, _, _⟩ := resolvePlain_str_facts hp
        have hrepr : scalarRepr (Val.str s) = s.data := by
          simp [scalarRepr, needsQuote, hq]
        rw [hrepr] at hrk
        obtain ⟨hbs, _⟩ := hhead kc kt hrk
        exact (badPlainStart_elim hbs).2.1
      · right
        have hq' : (resolvePlain s.data == some (Val.str s)) = false := by
          simp only [Bool.not_eq_true] at hq
          exact hq
        have hrepr : scalarRepr (Val.str s) = squote :: s.data ++ [squote] := by
          simp [scalarRepr, needsQuote, hq']
        rw [hrepr, List.cons_append] at hrk
        injection hrk with h1 h2
        exact ⟨s, h2.symm⟩

/-- Resolving the serialized form of a good mapping key gives it back. -/
theorem resolveKeyScalar_repr {k : Val} (hk : goodKey k = true) :
    resolveKeyScalar (scalarRepr k) = some k := by
  cases k with
  | null => rfl
  | int n => exact absurd hk (by simp [goodKey])
  | bool b => exact absurd hk (by simp [goodKey])
  | list xs => exact absurd hk (by simp [goodKey])
  | dict es => exact absurd hk (by simp [goodKey])
  | str s =>
      have hg : goodScalar (Val.str s) = true := goodKey_goodScalar hk
      have hs : strOK s = true := by
        simp only [goodScalar, Bool.and_eq_true] at hg
        exact hg.1.1.1
      by_cases hq : (resolvePlain s.data == some (Val.str s)) = true
      · have hp := resolvePlain_of_plainSelf hq
        obtain ⟨_, _, hhead, _, hne⟩ := resolvePlain_str_facts hp
        have hrepr : scalarRepr (Val.str s) = s.data := by
          simp [scalarRepr, needsQuote, hq]
        rw [hrepr]
        cases hdata : s.data with
        | nil => exact absurd hdata hne
        | cons c0 t0 =>
            obtain ⟨hbs, _⟩ := hhead c0 t0 hdata
            obtain ⟨_, hsq, _, _⟩ := badPlainStart_elim hbs
            rw [resolveKeyScalar.eq_def]
            simp only [hsq, Bool.false_eq_true, if_false]
            rw [← hdata, hp]
      · have hq' : (resolvePlain s.data == some (Val.str s)) = false := by
          simp only [Bool.not_eq_true] at hq
          exact hq
        have hall := strOK_quoted hs hq'
        have hrepr : scalarRepr (Val.str s) = squote :: s.data ++ [squote] := by
          simp [scalarRepr, needsQuote, hq']
        rw [hrepr, List.cons_append, resolveKeyScalar.eq_def]
        have hqq : (squote == squote) = true := by decide
        simp only [hqq, if_true]
        rw [← List.cons_append]
        exact resolveQuoted_repr hall

/-- A single-quoted node with a quote before its closing position fails. -/
theorem resolveQuoted_mid_squote_none {rest : List Char}
    (h : squote ∈ rest.dropLast) : resolveQuoted (squote :: rest) = none := by
  rw [resolveQuoted]
  have hd : (rest.dropLast.all fun c => !(c == squote) && !(c == '\n')) = false :=
    all_false_of_mem h (by decide)
  rw [hd, Bool.and_false]
  simp

/-- Trimming a serialized sequence-item line is the identity. -/
theorem trim_itemline {v : Val} (hv : goodScalar v = true) :
    trimChars ('-' :: ' ' :: scalarRepr v) = '-' :: ' ' :: scalarRepr v := by
  obtain ⟨_, hvlast, _, hvne⟩ := scalarRepr_shape hv
  cases hrv : scalarRepr v with
  | nil => exact absurd hrv hvne
  | cons c1 t1 =>
      rw [hrv] at hvlast
      apply trimChars_eq_self
      · intro c hc
        injection hc with hh
        rw [← hh]
        decide
      · intro c hc
        rw [List.getLast?_cons_cons, List.getLast?_cons_cons] at hc
        exact lastIsWs_false_getLast hvlast hc

/-- A serialized sequence-item line is not a single resolvable node. -/
theorem resolveNode_itemline_none {v : Val} (hv : goodScalar v = true) :
    resolveNode (trimChars ('-' :: ' ' :: scalarRepr v)) = none := by
  rw [trim_itemline hv]
  have hb1 : (('-' :: ' ' :: scalarRepr v) == [braceO, braceC]) = false :=
    cons_beq_cons_head_false (by decide)
  have hb2 : (('-' :: ' ' :: scalarRepr v) == ['[', ']']) = false :=
    cons_beq_cons_head_false (by decide)
  rw [resolveNode.eq_def, hb1, hb2]
  have hds : (('-' : Char) == squote) = false := by decide
  simp only [Bool.false_eq_true, if_false, hds]
  exact resolvePlain_dash_space_none _

/-- Parsing the serialized sequence-item line of a good scalar gives the
scalar back. -/
theorem parseItemLine_repr {v : Val} (hv : goodScalar v = true) :
    parseItemLine ('-' :: ' ' :: scalarRepr v) = some v := by
  have htrim := trim_scalarRepr hv
  obtain ⟨_, _, _, hne⟩ := scalarRepr_shape hv
  have hie : (trimChars (scalarRepr v)).isEmpty = false := by
    rw [htrim]
    cases hr : scalarRepr v with
    | nil => exact absurd hr hne
    | cons a b => rfl
  rw [parseItemLine.eq_def]
  simp only []
  rw [hie]
  simp only [Bool.false_eq_true, if_false]
  rw [htrim]
  exact resolveNode_repr hv

/-- A line that does not start with a dash is not a sequence-item line. -/
theorem parseItemLine_none_of_head {c0 : Char} {t : List Char}
    (h : (c0 == '-') = false) : parseItemLine (c0 :: t) = none := by
  rw [parseItemLine.eq_def]
  split
  · rename_i heq
    injection heq with h1 _
    rw [h1] at h
    simp at h
  · rfl

/-- A serialized sequence-item line has no newline and is not blank. -/
theorem itemline_shape {v : Val} (hv : goodScalar v = true) :
    '\n' ∉ '-' :: ' ' :: scalarRepr v ∧
      isBlankLine ('-' :: ' ' :: scalarRepr v) = false := by
  obtain ⟨_, _, hnl, _⟩ := scalarRepr_shape hv
  constructor
  · intro hmem
    rw [List.mem_cons, List.mem_cons] at hmem
    rcases hmem with h1 | h2 | h3
    · cases h1
    · cases h2
    · exact hnl h3
  · rw [isBlankLine, List.all_cons]
    rw [show isWsChar '-' = false from by decide, Bool.false_and]

/-- Trimming a serialized mapping line is the identity. -/
theorem trim_kvline {k v : Val} (hk : goodKey k = true) (hv : goodScalar v = true) :
    trimChars (scalarRepr k ++ ':' :: ' ' :: scalarRepr v) =
      scalarRepr k ++ ':' :: ' ' :: scalarRepr v := by
  have hgk := goodKey_goodScalar hk
  obtain ⟨hkhead, _, _, hkne⟩ := scalarRepr_shape hgk
  obtain ⟨_, hvlast, _, hvne⟩ := scalarRepr_shape hv
  apply trimChars_eq_self
  · intro c hc
    cases hrk : scalarRepr k with
    | nil => exact absurd hrk hkne
    | cons kc kt =>
        rw [hrk, List.cons_append] at hc
        injection hc with hh
        exact hh ▸ (hkhead kc kt hrk).1
  · intro c hc
    rw [List.getLast?_append_of_ne_nil _ (List.cons_ne_nil _ _)] at hc
    cases hrv : scalarRepr v with
    | nil => exact absurd hrv hvne
    | cons c1 t1 =>
        rw [hrv, List.getLast?_cons_cons, List.getLast?_cons_cons] at hc
        rw [hrv] at hvlast
        exact lastIsWs_false_getLast hvlast hc

/-- A serialized mapping line is not a single resolvable node. -/
theorem resolveNode_kvline_none {k v : Val} (hk : goodKey k = true)
    (hv : goodScalar v = true) :
    resolveNode (trimChars (scalarRepr k ++ ':' :: ' ' :: scalarRepr v)) = none := by
  rw [trim_kvline hk hv]
  have hgk := goodKey_goodScalar hk
  obtain ⟨hkhead, _, _, hkne⟩ := scalarRepr_shape hgk
  have hcolon : ':' ∈ scalarRepr k ++ ':' :: ' ' :: scalarRepr v :=
    List.mem_append.mpr (Or.inr (by simp))
  have hb1 : ((scalarRepr k ++ ':' :: ' ' :: scalarRepr v) == [braceO, braceC]) = false :=
    beq_false_of_mem_not_mem hcolon (by decide)
  have hb2 : ((scalarRepr k ++ ':' :: ' ' :: scalarRepr v) == ['[', ']']) = false :=
    beq_false_of_mem_not_mem hcolon (by decide)
  cases hrk : scalarRepr k with
  | nil => exact absurd hrk hkne
  | cons kc kt =>
      rw [hrk, List.cons_append] at hb1 hb2 hcolon
      rw [List.cons_append, resolveNode.eq_def, hb1, hb2]
      by_cases hqc : (kc == squote) = true
      · have hkc : kc = squote := eq_of_beq hqc
        simp only [Bool.false_eq_true, if_false, hqc, if_true]
        subst hkc
        apply resolveQuoted_mid_squote_none
        rcases keyRepr_squote_cases hk hrk with hsq | ⟨s, hkt⟩
        · exact absurd hqc (by rw [hsq]; simp)
        · rw [hkt, List.dropLast_append_of_ne_nil _ (List.cons_ne_nil _ _)]
          exact List.mem_append.mpr (Or.inl (List.mem_append.mpr (Or.inr (by simp))))
      · have hsq : (kc == squote) = false := by
          simp only [Bool.not_eq_true] at hqc
          exact hqc
        simp only [Bool.false_eq_true, if_false, hsq]
        apply resolvePlain_colon_none hcolon
        intro c t he
        injection he with h1 _
        rw [← h1]
        exact (hkhead kc kt hrk).2

/-- A serialized mapping line is not a sequence-item line. -/
theorem parseItemLine_kvline_none {k : Val} (v : Val) (hk : goodKey k = true) :
    parseItemLine (scalarRepr k ++ ':' :: ' ' :: scalarRepr v) = none := by
  have hgk := goodKey_goodScalar hk
  obtain ⟨hkhead, _, _, hkne⟩ := scalarRepr_shape hgk
  cases hrk : scalarRepr k with
  | nil => exact absurd hrk hkne
  | cons kc kt =>
      rw [List.cons_append]
      exact parseItemLine_none_of_head (hkhead kc kt hrk).2

/-- A serialized mapping line has no newline and is not blank. -/
theorem kvline_shape {k v : Val} (hk : goodKey k = true) (hv : goodScalar v = true) :
    '\n' ∉ scalarRepr k ++ ':' :: ' ' :: scalarRepr v ∧
      isBlankLine (scalarRepr k ++ ':' :: ' ' :: scalarRepr v) = false := by
  have hgk := goodKey_goodScalar hk
  obtain ⟨hkhead, _, hknl, hkne⟩ := scalarRepr_shape hgk
  obtain ⟨_, _, hvnl, _⟩ := scalarRepr_shape hv
  constructor
  · intro hmem
    rw [List.mem_append, List.mem_cons, List.mem_cons] at hmem
    rcases hmem with h1 | h2 | h3 | h4
    · exact hknl h1
    · cases h2
    · cases h3
    · exact hvnl h4
  · cases hrk : scalarRepr k with
    | nil => exact absurd hrk hkne
    | cons kc kt =>
        rw [List.cons_append, isBlankLine, List.all_cons,
          (hkhead kc kt hrk).1, Bool.false_and]

/-- Parsing the serialized mapping line of a good key-value pair gives the
pair back. -/
theorem parseKvLine_repr {k v : Val} (hk : goodKey k = true)
    (hv : goodScalar v = true) :
    parseKvLine (scalarRepr k ++ ':' :: ' ' :: scalarRepr v) = some (k, v) := by
  have hgk := goodKey_goodScalar hk
  obtain ⟨hkhead, _, _, hkne⟩ := scalarRepr_shape hgk
  obtain ⟨hvhead, _, _, hvne⟩ := scalarRepr_shape hv
  have hall : ∀ c ∈ scalarRepr k, (fun c => !(c == ':')) c = true := by
    intro c hc
    show (!(c == ':')) = true
    rw [keyRepr_colon_free hk c hc]
    rfl
  have hB : ∀ x xs, (':' :: ' ' :: scalarRepr v) = x :: xs →
      (fun c => !(c == ':')) x = false := by
    intro x xs he
    injection he with h1 _
    rw [← h1]
    decide
  obtain ⟨htw, hdw⟩ := takeWhile_append_eq _ _ hall hB
  have hbl : isBlankLine (' ' :: scalarRepr v) = false := by
    cases hrv : scalarRepr v with
    | nil => exact absurd hrv hvne
    | cons c1 t1 =>
        rw [isBlankLine, List.all_cons, List.all_cons, (hvhead c1 t1 hrv).1]
        simp
  cases hrk : scalarRepr k with
  | nil => exact absurd hrk hkne
  | cons kc kt =>
      rw [hrk, List.cons_append] at htw hdw
      rw [List.cons_append, parseKvLine.eq_def]
      simp only []
      rw [(hkhead kc kt hrk).1]
      simp only [Bool.false_eq_true, if_false]
      rw [hdw]
      simp only []
      rw [htw, ← hrk, trim_scalarRepr hgk, resolveKeyScalar_repr hk]
      simp only []
      rw [hbl]
      simp only [Bool.false_eq_true, if_false]
      rw [trimChars_cons_ws (by decide) _, trim_scalarRepr hv, resolveNode_repr hv]

/-- A mapping of good key-value pairs dumps as one `key: value` line per
entry. -/
theorem dumpDictLines_flat {es : List (Val × Val)}
    (h : ∀ p ∈ es, goodKey p.1 = true ∧ goodScalar p.2 = true) :
    dumpDictLines es =
      es.map (fun p => scalarRepr p.1 ++ ':' :: ' ' :: scalarRepr p.2) := by
  induction es with
  | nil => rfl
  | cons p t ih =>
      obtain ⟨k, v⟩ := p
      rw [dumpDictLines, goodScalar_isScalarish (h (k, v) (by simp)).2]
      simp only [if_true]
      rw [ih (fun q hq => h q (by simp [hq])), List.map_cons]
      rfl

/-- A sequence of good scalars dumps as one `- value` line per element. -/
theorem dumpListLines_flat {xs : List Val}
    (h : ∀ x ∈ xs, goodScalar x = true) :
    dumpListLines xs = xs.map (fun x => '-' :: ' ' :: scalarRepr x) := by
  induction xs with
  | nil => rfl
  | cons x t ih =>
      rw [dumpListLines, goodScalar_isScalarish (h x (by simp))]
      simp only [if_true]
      rw [ih (fun y hy => h y (by simp [hy])), List.map_cons]
      rfl

/-- Parsing back the serialized mapping lines recovers the entry list. -/
theorem optMapParse_kvlines {es : List (Val × Val)}
    (h : ∀ p ∈ es, goodKey p.1 = true ∧ goodScalar p.2 = true) :
    optMapParse parseKvLine
      (es.map (fun p => scalarRepr p.1 ++ ':' :: ' ' :: scalarRepr p.2)) =
      some es := by
  induction es with
  | nil => rfl
  | cons p t ih =>
      obtain ⟨k, v⟩ := p
      rw [List.map_cons, optMapParse,
        parseKvLine_repr (h (k, v) (by simp)).1 (h (k, v) (by simp)).2,
        ih (fun q hq => h q (by simp [hq]))]

/-- Parsing back the serialized sequence lines recovers the element list. -/
theorem optMapParse_itemlines {xs : List Val}
    (h : ∀ x ∈ xs, goodScalar x = true) :
    optMapParse parseItemLine (xs.map (fun x => '-' :: ' ' :: scalarRepr x)) =
      some xs := by
  induction xs with
  | nil => rfl
  | cons x t ih =>
      rw [List.map_cons, optMapParse, parseItemLine_repr (h x (by simp)),
        ih (fun y hy => h y (by simp [hy]))]

/-- Splitting a dumped document back into non-blank lines recovers exactly
the dumped lines. -/
theorem yamlLoad_lines (w : Val)
    (h1 : ∀ l ∈ dumpLines w, '\n' ∉ l)
    (h2 : ∀ l ∈ dumpLines w, isBlankLine l = false) :
    (splitNl (yamlDump w).data).filter (fun l => !(isBlankLine l)) =
      dumpLines w := by
  have hnl : ∀ l ∈ dumpLines w ++ [[]], '\n' ∉ l := by
    intro l hl
    rw [List.mem_append] at hl
    rcases hl with ha | hb
    · exact h1 l ha
    · rw [List.mem_singleton] at hb
      subst hb
      simp
  have hd : (yamlDump w).data = joinNl (dumpLines w ++ [[]]) := rfl
  rw [hd, splitNl_joinNl (dumpLines w ++ [[]]) (by simp) hnl, List.filter_append]
  have hfl : (dumpLines w).filter (fun l => !(isBlankLine l)) = dumpLines w := by
    apply List.filter_eq_self.mpr
    intro a ha
    rw [h2 a ha]
    rfl
  have hfe : ([([] : List Char)]).filter (fun l => !(isBlankLine l)) = [] := rfl
  rw [hfl, hfe, List.append_nil]

/-- A list-parse attempt fails as soon as its first line fails. -/
theorem optMapParse_none_head {f : List Char → Option α} {l : List Char}
    (h : f l = none) (ls : List (List Char)) : optMapParse f (l :: ls) = none := by
  rw [optMapParse, h]

/-- Loading the dump of a single good scalar line gives the value back. -/
theorem dump_load_scalarish {w : Val} (hv : goodScalar w = true)
    (hd : dumpLines w = [scalarRepr w]) :
    yamlLoad (yamlDump w) = some w := by
  obtain ⟨hhead, _, hnl, hne⟩ := scalarRepr_shape hv
  have hnb : isBlankLine (scalarRepr w) = false := by
    cases hr : scalarRepr w with
    | nil => exact absurd hr hne
    | cons c t => rw [isBlankLine, List.all_cons, (hhead c t hr).1, Bool.false_and]
  have hms := yamlLoad_lines w
    (by intro l hl; rw [hd, List.mem_singleton] at hl; subst hl; exact hnl)
    (by intro l hl; rw [hd, List.mem_singleton] at hl; subst hl; exact hnb)
  rw [hd] at hms
  rw [yamlLoad, hms]
  simp only []
  rw [trim_scalarRepr hv, resolveNode_repr hv]

/-- Loading the dump of a good decoded tree gives the tree back: on the
flat fragment the modelled serializer and parser are mutually inverse. -/
theorem dump_load {w : Val} (hw : goodTree w = true) :
    yamlLoad (yamlDump w) = some w := by
  cases w with
  | int n => exact absurd hw (by simp [goodTree, goodScalar])
  | bool b => exact absurd hw (by simp [goodTree, goodScalar])
  | null => exact dump_load_scalarish hw rfl
  | str s => exact dump_load_scalarish hw rfl
  | list xs =>
      cases xs with
      | nil => exact dump_load_scalarish (by rfl) rfl
      | cons x t =>
          have hall : ∀ y ∈ x :: t, goodScalar y = true := by
            rw [goodTree, List.all_eq_true] at hw
            exact hw
          have hd : dumpLines (Val.list (x :: t)) =
              (x :: t).map (fun y => '-' :: ' ' :: scalarRepr y) := by
            rw [dumpLines]
            exact dumpListLines_flat hall
          have hfacts : ∀ l ∈ dumpLines (Val.list (x :: t)),
              '\n' ∉ l ∧ isBlankLine l = false := by
            intro l hl
            rw [hd, List.mem_map] at hl
            obtain ⟨y, hy, hly⟩ := hl
            subst hly
            exact itemline_shape (hall y hy)
          have hms := yamlLoad_lines (Val.list (x :: t))
            (fun l hl => (hfacts l hl).1) (fun l hl => (hfacts l hl).2)
          rw [hd] at hms
          cases t with
          | nil =>
              rw [List.map_cons, List.map_nil] at hms
              rw [yamlLoad, hms]
              simp only []
              rw [resolveNode_itemline_none (hall x (by simp))]
              simp only []
              rw [parseItemLine_repr (hall x (by simp))]
          | cons y t2 =>
              rw [List.map_cons, List.map_cons] at hms
              rw [yamlLoad, hms]
              simp only []
              have hitems := optMapParse_itemlines hall
              rw [List.map_cons, List.map_cons] at hitems
              rw [hitems]
  | dict es =>
      cases es with
      | nil => exact dump_load_scalarish (by rfl) rfl
      | cons p t =>
          have hw' := hw
          rw [goodTree, Bool.and_eq_true, List.all_eq_true] at hw'
          have hkv : ∀ q ∈ p :: t, goodKey q.1 = true ∧ goodScalar q.2 = true := by
            intro q hq
            have := hw'.1 q hq
            rw [Bool.and_eq_true] at this
            exact this
          have hku := hw'.2
          have hd : dumpLines (Val.dict (p :: t)) =
              (p :: t).map (fun q => scalarRepr q.1 ++ ':' :: ' ' :: scalarRepr q.2) := by
            rw [dumpLines]
            exact dumpDictLines_flat hkv
          have hfacts : ∀ l ∈ dumpLines (Val.dict (p :: t)),
              '\n' ∉ l ∧ isBlankLine l = false := by
            intro l hl
            rw [hd, List.mem_map] at hl
            obtain ⟨q, hq, hlq⟩ := hl
            subst hlq
            exact kvline_shape (hkv q hq).1 (hkv q hq).2
          have hms := yamlLoad_lines (Val.dict (p :: t))
            (fun l hl => (hfacts l hl).1) (fun l hl => (hfacts l hl).2)
          rw [hd] at hms
          cases t with
          | nil =>
              rw [List.map_cons, List.map_nil] at hms
              rw [yamlLoad, hms]
              simp only []
              rw [resolveNode_kvline_none (hkv p (by simp)).1 (hkv p (by simp)).2]
              simp only []
              rw [parseItemLine_kvline_none _ (hkv p (by simp)).1]
              simp only []
              rw [parseKvLine_repr (hkv p (by simp)).1 (hkv p (by simp)).2]
              simp only []
              rw [dedupEntries_singleton]
          | cons q t2 =>
              rw [List.map_cons, List.map_cons] at hms
              rw [yamlLoad, hms]
              simp only []
              rw [optMapParse_none_head
                (parseItemLine_kvline_none _ (hkv p (by simp)).1) _]
              simp only []
              have hkvs := optMapParse_kvlines hkv
              rw [List.map_cons, List.map_cons] at hkvs
              rw [hkvs]
              simp only []
              rw [dedupEntries_of_kuKeys hku]

/-! ### Claim theorems -/

/-- C1: evaluation of the code at the claim's input.  The claim states that
`diff("foo", "bar", \x7b\x7d, false)` yields `changed = true` with
`before = "bar\n"` and `after = "foo\n"`; the code instead produces
`changed = false` with `before = after = "\x7b\x7d\n"`, because
`del_ignore_keys` maps each scalar input to the fresh empty `result_dict`
instead of returning the scalar unchanged. -/
theorem C1_diff_of_two_scalars_eval :
    ydiff_main "foo" "bar" (Val.dict []) false =
      Except.ok ⟨"\x7b\x7d\n", "\x7b\x7d\n", false⟩ := by
  have h1 : yaml2dict_of_dict (Val.dict []) = some (Val.dict []) := rfl
  have h2 : yaml2dict_of_str "foo" = some (Val.str "foo") := rfl
  have h3 : yaml2dict_of_str "bar" = some (Val.str "bar") := rfl
  have h4 : del_ignore_keys (Val.str "foo") (Val.dict []) = Except.ok (Val.dict []) := by
    simp [del_ignore_keys]
  have h5 : del_ignore_keys (Val.str "bar") (Val.dict []) = Except.ok (Val.dict []) := by
    simp [del_ignore_keys]
  have h6 : dict_to_yaml_str (Val.dict []) = "\x7b\x7d\n" := rfl
  simp [ydiff_main, h1, h2, h3, h4, h5, h6, isDictVal]

/-- C2: evaluation of the code at the claim's inputs.  For every shape
pairing other than Mapping/Mapping and Sequence/(one-element Sequence) —
scalar source, mismatched container kinds, or a sequence spec of length ≠ 1
— the claim states `prune_by_ignore` returns the source unchanged; the code
instead returns the empty Mapping (the `return result_dict` at line 335
returns the fresh dict, contradicting the comment above it). -/
theorem C2_other_pairings_eval :
    del_ignore_keys (Val.str "foo") (Val.dict []) = Except.ok (Val.dict []) ∧
    del_ignore_keys (Val.str "foo") (Val.str "foo") = Except.ok (Val.dict []) ∧
    del_ignore_keys (Val.dict [(Val.str "a", Val.str "1")]) (Val.list [Val.null]) =
      Except.ok (Val.dict []) ∧
    del_ignore_keys (Val.list [Val.str "a"]) (Val.list [Val.null, Val.null]) =
      Except.ok (Val.dict []) ∧
    Val.dict [] ≠ Val.str "foo" := by
  refine ⟨?_, ?_, ?_, ?_, by decide⟩ <;> simp [del_ignore_keys]

/-- C3 counterexample: decoding `"null"` does not yield `Null` (it yields
the Scalar `"None"`), and decoding `"None"` does not yield `Null` either
(it yields the empty Mapping), refuting the claimed null-token closure of
`decode`. -/
theorem C3_null_token_closure_counterexample :
    yaml_str_to_dict "null" ≠ some Val.null ∧
    yaml_str_to_dict "None" ≠ some Val.null := by
  constructor <;> decide

/-- C3 amended: decoding `"null"` yields the Scalar `"None"` (the parser's
`None` is stringified by `__normalize`), decoding `"None"` yields the empty
Mapping (the parsed string `"None"` normalizes to `None`, which the
empty-document branch converts to `\x7b\x7d`), and the normalizer itself maps
each of the four textual null tokens to `Null`. -/
theorem C3_null_token_closure_amended :
    yaml_str_to_dict "null" = some (Val.str "None") ∧
    yaml_str_to_dict "None" = some (Val.dict []) ∧
    normalize (Val.str "None") = Val.null ∧
    normalize (Val.str "null") = Val.null ∧
    normalize (Val.str "Null") = Val.null ∧
    normalize (Val.str "NULL") = Val.null :=
  ⟨rfl, rfl, rfl, rfl, rfl, rfl⟩

/-- C4: evaluation of the code at the claim's inputs.  The claim (and the
`Handle empty dict` comment at ydiff.py line 237) says empty or
whitespace-only input decodes to the empty Mapping; the code instead
returns the Scalar `"None"`, because `__normalize` turns the parser's
`None` into the string `"None"` before the `obj is None` test can fire. -/
theorem C4_empty_input_eval :
    yaml_str_to_dict "" = some (Val.str "None") ∧
    yaml_str_to_dict " \t \n  \n" = some (Val.str "None") ∧
    yaml_str_to_dict "" ≠ some (Val.dict []) := by
  refine ⟨rfl, rfl, by decide⟩

/-- C5: evaluation of the code at the claim's failing input.  `Null` is in
the image of `normalize` (witness: the decodable token string `"null"`),
and on it a second application of `normalize` differs from the first:
`normalize(Null) = "None"` but `normalize(normalize(Null)) = Null`, so
normalization is not idempotent on its image. -/
theorem C5_normalize_not_idempotent_eval :
    normalize (Val.str "null") = Val.null ∧
    normalize (normalize Val.null) ≠ normalize Val.null := by
  refine ⟨rfl, by decide⟩

/-- C6: evaluation of the code at the claim's inputs.  For a Sequence
source against a one-element Sequence spec the claim says the retain
branch keeps the element and the result is a Sequence in source order; the
code instead raises `NameError` in the retain branch (`result_dict[key]`
with `key` unbound, ydiff.py line 332) and, when elements recurse, returns
a Mapping keyed by the integer indices in reversed order rather than a
Sequence. -/
theorem C6_sequence_pattern_eval :
    del_ignore_keys (Val.list [Val.str "a"]) (Val.list [Val.str "b"]) =
      Except.error "NameError" ∧
    del_ignore_keys
        (Val.list [Val.dict [(Val.str "f", Val.str "1"), (Val.str "g", Val.str "2")],
                   Val.dict [(Val.str "f", Val.str "1"), (Val.str "g", Val.str "3")]])
        (Val.list [Val.dict [(Val.str "f", Val.null)]]) =
      Except.ok (Val.dict
        [(Val.int 1, Val.dict [(Val.str "g", Val.str "3")]),
         (Val.int 0, Val.dict [(Val.str "g", Val.str "2")])]) := by
  constructor <;>
    simp [del_ignore_keys, digList, digDict, isContainer, inEmptyListVals,
      inEmptyDictVals, pyEq, lookupPy, List.find?]

/-- C7 counterexample: a spec value that is the literal two-character Scalar
`"[]"` (or `"\x7b\x7d"`) deletes the key even though it is neither the claim's
empty set (Null, empty Scalar, empty Sequence, empty Mapping) nor equal to
the source value, so the claim's "otherwise keep" clause is violated. -/
theorem C7_mapping_policy_counterexample :
    del_ignore_keys (Val.dict [(Val.str "k", Val.str "x")])
        (Val.dict [(Val.str "k", Val.str "[]")]) = Except.ok (Val.dict []) ∧
    del_ignore_keys (Val.dict [(Val.str "k", Val.str "x")])
        (Val.dict [(Val.str "k", Val.str "\x7b\x7d")]) = Except.ok (Val.dict []) ∧
    Val.dict [] ≠ Val.dict [(Val.str "k", Val.str "x")] := by
  refine ⟨?_, ?_, by decide⟩ <;>
    simp [del_ignore_keys, digDict, lookupPy, List.find?, pyEq, isContainer,
      inEmptyDictVals]

/-- C7 amended: for Mapping source against Mapping spec, `del_ignore_keys`
implements exactly the claimed policy once the emptiness set is extended by
the literal Scalars `"[]"` and `"\x7b\x7d"`: keys absent from the spec are kept
unchanged; a key present in both recurses whenever both values are
containers (checked before the emptiness test), is dropped when the spec
value is in the extended empty set or Python-equals the source value, and
is kept unchanged otherwise (`prune_mapping_spec` spells out that policy). -/
theorem C7_mapping_policy_amended :
    ∀ sd dd : List (Val × Val),
      del_ignore_keys (Val.dict sd) (Val.dict dd) =
        Except.map Val.dict (prune_mapping_spec sd dd) := by
  intro sd dd
  rw [del_ignore_keys, digDict_eq_spec]
  cases prune_mapping_spec sd dd <;> rfl

/-- C8 counterexample: inside a Sequence, an element that is the literal
two-character Scalar `"[]"` (or `"\x7b\x7d"`) is removed by `del_empty_keys`,
although the claim allows only Null, nested empty Sequence and nested empty
Mapping to trigger element removal. -/
theorem C8_context_emptiness_counterexample :
    del_empty_keys (Val.list [Val.str "[]"]) = Val.list [] ∧
    del_empty_keys (Val.list [Val.str "\x7b\x7d"]) = Val.list [] ∧
    Val.list [] ≠ Val.list [Val.str "[]"] := by
  refine ⟨rfl, rfl, by decide⟩

/-- C8 amended: `del_empty_keys` uses context-dependent emptiness exactly
as claimed once the literal Scalars `"[]"` and `"\x7b\x7d"` are added to both
context sets: in a Mapping it drops keys whose recursively pruned value is
Null, empty Scalar, `"[]"`, `"\x7b\x7d"`, empty Sequence or empty Mapping;
in a Sequence a bare empty string is retained and only Null, `"[]"`,
`"\x7b\x7d"`, nested empty Sequence and nested empty Mapping trigger removal
(`prune_empty_spec` spells out that policy). -/
theorem C8_context_emptiness_amended :
    ∀ v : Val, del_empty_keys v = prune_empty_spec v :=
  dek_eq_spec

/-- C9: encode/decode round-trip on the decode image.  For every ValueTree
`t` produced by the decoder `yaml_str_to_dict`, encoding it with
`dict_to_yaml_str` and decoding again returns exactly `t` (the external
`yaml.load`/`yaml.dump` calls are the modelled flat-fragment codec; the
repository functions wrapping them are embedded from source).  The proof
composes `decode_good` (decoded trees are flat and non-Null),
`norm_tree_good` (on such trees the normalizer is an involution) and
`dump_load` (the modelled serializer and parser are mutually inverse on
normalized flat trees). -/
theorem C9_round_trip {s : String} {t : Val}
    (h : yaml_str_to_dict s = some t) :
    yaml_str_to_dict (dict_to_yaml_str t) = some t := by
  obtain ⟨hg, hne⟩ := decode_good h
  obtain ⟨hg2, hnn⟩ := norm_tree_good hg
  rw [dict_to_yaml_str, yaml_str_to_dict, dump_load hg2]
  simp only []
  rw [hnn, if_neg hne]

/-- C9 witness: the theorem applied at the concrete input `"a: None"`,
which decodes to the Mapping with key `"a"` and Null value (yaml reads the
plain scalar `None` as the string `"None"`, which the normalizer maps to
Null); re-encoding prints `a: None` and decoding returns the same tree. -/
theorem C9_round_trip_witness :
    yaml_str_to_dict "a: None" = some (Val.dict [(Val.str "a", Val.null)]) ∧
    yaml_str_to_dict (dict_to_yaml_str (Val.dict [(Val.str "a", Val.null)])) =
      some (Val.dict [(Val.str "a", Val.null)]) :=
  ⟨rfl, @C9_round_trip "a: None" _ rfl⟩

/-- C10: beyond the spec's emptiness set, `del_empty_keys` also treats the
literal Scalars `"[]"` and `"\x7b\x7d"` as empty: no entry of a pruned Mapping
retains such a value, and no element of a pruned Sequence equals one. -/
theorem C10_literal_bracket_scalars_pruned :
    (∀ (es es' : List (Val × Val)), del_empty_keys (Val.dict es) = Val.dict es' →
      ∀ p ∈ es', p.2 ≠ Val.str "[]" ∧ p.2 ≠ Val.str "\x7b\x7d") ∧
    (∀ (xs ys : List Val), del_empty_keys (Val.list xs) = Val.list ys →
      ∀ v ∈ ys, v ≠ Val.str "[]" ∧ v ≠ Val.str "\x7b\x7d") := by
  constructor
  · intro es es' h p hp
    rw [del_empty_keys, Val.dict.injEq] at h
    exact dekDict_no_literal_bracket es p (h ▸ hp)
  · intro xs ys h v hv
    rw [del_empty_keys, Val.list.injEq] at h
    exact dekList_no_literal_bracket xs v (h ▸ hv)

/-- C10 witness: the theorem applied at a concrete Mapping and a concrete
Sequence (the `"[]"`-valued key and element are pruned; the surviving entry
is not a literal bracket scalar). -/
theorem C10_literal_bracket_scalars_pruned_witness :
    (Val.str "x" ≠ Val.str "[]" ∧ Val.str "x" ≠ Val.str "\x7b\x7d") ∧
    (Val.str "y" ≠ Val.str "[]" ∧ Val.str "y" ≠ Val.str "\x7b\x7d") :=
  ⟨C10_literal_bracket_scalars_pruned.1
      [(Val.str "a", Val.str "[]"), (Val.str "b", Val.str "x")]
      [(Val.str "b", Val.str "x")] rfl (Val.str "b", Val.str "x") (by decide),
   C10_literal_bracket_scalars_pruned.2
      [Val.str "\x7b\x7d", Val.str "y"] [Val.str "y"] rfl (Val.str "y") (by decide)⟩

end Ydiff
